import Mathlib

/-!
Shallow embedding of `src/py/trailer_opt.py`: a trailer-fleet minimization
program that reads a driver schedule, derives route legs, builds a directed
flow network (a networkx `DiGraph`) and solves a minimum-flow linear program
(docplex) whose optimal value is the minimum trailer count.

Conventions of the embedding:
* timestamps are integers (hours since some epoch); `preload_time` and
  `drop_time` are the source's constants (lines 10-11), in hours;
* a pre-processed pandas row (after line 26) is a `StopRec`; the shifted
  columns `NxtArvDTTM`/`DestZip` (lines 28-29) are represented by pairing
  each kept row with its successor row in the sorted frame (the single row
  without a successor always carries the maximal sequence of its route and
  is always removed by the line-32 filter, so the pairing is exact);
* the networkx `DiGraph` is a list of nodes carrying attribute records plus
  a list of tagged edges; `add_node` / `add_edge` upsert by key exactly as
  networkx does (re-adding a node replaces its attributes in place,
  re-adding an edge replaces its tag in place, insertion order is kept);
* reading a missing attribute key (`y['tag']` on a node created implicitly
  by `add_edge`) raises `KeyError` in Python, so graph construction returns
  `Option Graph` and yields `none` exactly when line 82 would raise;
* the docplex model is represented by the list of linear constraints the
  source constructs (`modelCons`, lines 114-130) plus per-variable bounds
  (`boundSat`, lines 104-112); the external LP engine itself is not part of
  src/ and is modelled from the spec as the relation `solverReturns`.
-/

namespace TrailerOpt

/-- Config constant `preload_time = 6` (hours), line 10 of the source. -/
def preload_time : Int := 6

/-- Config constant `drop_time = 8` (hours), line 11 of the source. -/
def drop_time : Int := 8

/-- One pre-processed schedule row: `Route`, `Sequence`, `Zip` and the parsed
arrival timestamp `ArvDTTM`.  The departure timestamp and the unused columns
(`EqCode`, `City`, `State`, `PreloadTm`, `DropTm`, `LoadAct`) never influence
the graph or the model and are omitted. -/
structure StopRec where
  route : Int
  seq : Int
  zip : String
  arv : Int
  deriving DecidableEq, Repr

/-- The ordering used by `sort_values(by=['Route', 'Sequence'])` (line 22):
lexicographic on the (Route, Sequence) pair. -/
def rowLe (a b : StopRec) : Prop :=
  a.route < b.route ∨ (a.route = b.route ∧ a.seq ≤ b.seq)

instance : DecidableRel rowLe := fun a b => by
  unfold rowLe; infer_instance

instance : IsTotal StopRec rowLe :=
  ⟨fun a b => by unfold rowLe; omega⟩

instance : IsTrans StopRec rowLe :=
  ⟨fun a b c => by unfold rowLe; omega⟩

/-- The line-32 filter `groupby('Route')['Sequence'].transform(max) !=
Sequence` keeps a row iff its sequence is not the maximum of its route,
i.e. iff some row of the same route has a strictly larger sequence (the
group maximum is always `≥` the row's own sequence, so `max ≠ seq` is
equivalent to the existence of a strictly larger same-route sequence). -/
def keptStop (l : List StopRec) (a : StopRec) : Bool :=
  l.any fun y => y.route == a.route && decide (a.seq < y.seq)

/-- Lines 16-35: sort the rows by (Route, Sequence), pair every row with its
successor (`shift(-1)` produces `NxtArvDTTM`/`DestZip`), and drop the last
stop of each route.  A leg is the pair (row, successor row). -/
def read_driver_schedule (rows : List StopRec) : List (StopRec × StopRec) :=
  let sorted := List.insertionSort rowLe rows
  (sorted.zip sorted.tail).filter fun p => keptStop sorted p.1

/-- networkx node keys as used by the source: the strings `'s'`/`'t'`, pairs
`(Zip, 'out'/'in')` for pool nodes, and triples `(Route, Sequence,
'start'/'end')` for trailer nodes. -/
inductive NKey where
  | s : NKey
  | t : NKey
  | loc (zip : String) (typ : String) : NKey
  | trl (route : Int) (seq : Int) (typ : String) : NKey
  deriving DecidableEq, Repr

/-- A networkx node attribute dictionary: every key the source ever sets,
each `none` when absent.  Reading an absent key raises `KeyError` in Python;
the places where the source reads attributes handle this explicitly. -/
structure NAttr where
  tag : Option String := none
  start_loc : Option String := none
  startTm : Option Int := none
  end_loc : Option String := none
  endTm : Option Int := none
  deriving DecidableEq, Repr

/-- Replace the attribute record stored at `k`, else append; mirrors
`DiGraph.add_node` (all source call sites set the same attribute keys on
re-addition, so replacement coincides with networkx's dict update). -/
def upsertNode : List (NKey × NAttr) → NKey → NAttr → List (NKey × NAttr)
  | [], k, a => [(k, a)]
  | p :: rest, k, a =>
    if p.1 = k then (k, a) :: rest else p :: upsertNode rest k a

/-- Replace the tag stored at edge `(i, j)`, else append; mirrors
`DiGraph.add_edge`. -/
def upsertEdge : List (NKey × NKey × String) → NKey → NKey → String →
    List (NKey × NKey × String)
  | [], i, j, tg => [(i, j, tg)]
  | e :: rest, i, j, tg =>
    if e.1 = i ∧ e.2.1 = j then (i, j, tg) :: rest else e :: upsertEdge rest i j tg

/-- The networkx `DiGraph`: insertion-ordered nodes with attributes and
insertion-ordered edges with a `tag` attribute. -/
structure Graph where
  nodes : List (NKey × NAttr) := []
  edges : List (NKey × NKey × String) := []
  deriving DecidableEq, Repr

def hasNode (g : Graph) (k : NKey) : Bool :=
  g.nodes.any fun p => p.1 == k

def add_node (g : Graph) (k : NKey) (a : NAttr) : Graph :=
  { g with nodes := upsertNode g.nodes k a }

/-- `add_edge` creates missing endpoints with an empty attribute dict. -/
def ensureNode (g : Graph) (k : NKey) : Graph :=
  if hasNode g k then g else { g with nodes := g.nodes ++ [(k, {})] }

def add_edge (g : Graph) (i j : NKey) (tg : String) : Graph :=
  let g' := ensureNode (ensureNode g i) j
  { g' with edges := upsertEdge g'.edges i j tg }

/-- `G.add_edges_from(pairs, tag=tg)`. -/
def add_edges_from (g : Graph) (ps : List (NKey × NKey)) (tg : String) : Graph :=
  ps.foldl (fun h p => add_edge h p.1 p.2 tg) g

/-- Attribute lookup `G.node[k]`; node keys in a graph are unique so `find?`
returns the entry.  (Only applied to keys present in the graph.) -/
def attrOf (g : Graph) (k : NKey) : NAttr :=
  ((g.nodes.find? fun p => p.1 == k).map Prod.snd).getD {}

/-- Attributes of a `trailer_start` node, lines 59-62: origin zip and
ready time `ArvDTTM - preload_time`. -/
def startAttr (p : StopRec × StopRec) : NAttr :=
  { tag := some "trailer_start", start_loc := some p.1.zip,
    startTm := some (p.1.arv - preload_time) }

/-- Attributes of a `trailer_end` node, lines 64-67: destination zip
(`DestZip`, the successor stop's zip) and release time
`NxtArvDTTM + drop_time`. -/
def endAttr (p : StopRec × StopRec) : NAttr :=
  { tag := some "trailer_end", end_loc := some p.2.zip,
    endTm := some (p.2.arv + drop_time) }

def startKey (p : StopRec × StopRec) : NKey := .trl p.1.route p.1.seq "start"

def endKey (p : StopRec × StopRec) : NKey := .trl p.1.route p.1.seq "end"

/-- `Series.unique()`: deduplicate keeping the first occurrence. -/
def uniqueFirst : List String → List String :=
  fun l => l.foldl (fun acc z => if z ∈ acc then acc else acc ++ [z]) []

/-- Lines 54-56: one `(loc, 'out')` and one `(loc, 'in')` node per location,
tagged `location` (the nested `for loc: for typ in ('out', 'in')` loop,
flattened into the equivalent single fold over the key sequence). -/
def addLocNodes (g : Graph) (locations : List String) : Graph :=
  (locations.flatMap fun z => [NKey.loc z "out", NKey.loc z "in"]).foldl
    (fun h k => add_node h k { tag := some "location" }) g

/-- Lines 59-62: one `trailer_start` node per leg. -/
def addStartNodes (g : Graph) (legs : List (StopRec × StopRec)) : Graph :=
  legs.foldl (fun h p => add_node h (startKey p) (startAttr p)) g

/-- Lines 64-67: one `trailer_end` node per leg. -/
def addEndNodes (g : Graph) (legs : List (StopRec × StopRec)) : Graph :=
  legs.foldl (fun h p => add_node h (endKey p) (endAttr p)) g

/-- Line 76: `trl_supp` edge (pool out -> trailer start) per leg. -/
def addSuppEdges (g : Graph) (legs : List (StopRec × StopRec)) : Graph :=
  add_edges_from g (legs.map fun p => (NKey.loc p.1.zip "out", startKey p)) "trl_supp"

/-- Line 79: `trl_rtrn` edge (trailer end -> pool in) per leg. -/
def addRtrnEdges (g : Graph) (legs : List (StopRec × StopRec)) : Graph :=
  add_edges_from g (legs.map fun p => (endKey p, NKey.loc p.2.zip "in")) "trl_rtrn"

/-- Line 82's `y['tag']` for every node; `none` when some node lacks a tag
(Python raises `KeyError` there). -/
def taggedNodes? (g : Graph) : Option (List (NKey × String)) :=
  g.nodes.mapM fun p => p.2.tag.map fun tg => (p.1, tg)

/-- `i[:2] == j[:2]` (line 86) for the node keys that reach it: two trailer
keys match iff they share (Route, Sequence); keys of other shapes (the
one-character strings `'s'`/`'t'`, the 2-tuples) can never equal a trailer
key's 2-prefix. -/
def pre2eq : NKey → NKey → Bool
  | .trl r sq _, .trl r' sq' _ => r == r' && sq == sq'
  | _, _ => false

/-- Comparison of possibly-missing timestamps; a pandas `NaT` compares
`False` under `<`. -/
def optLtInt : Option Int → Option Int → Bool
  | some a, some b => decide (a < b)
  | _, _ => false

/-- Equality of possibly-missing zips; a pandas `NaN` compares `False`
under `==`. -/
def optEqStr : Option String → Option String → Bool
  | some a, some b => a == b
  | _, _ => false

/-- Lines 92-93: the reuse feasibility predicate, read off the node
attributes: `end_loc(i) == start_loc(j) and end(i) < start(j)`. -/
def reuseCond (g : Graph) (i j : NKey) : Bool :=
  optEqStr (attrOf g i).end_loc (attrOf g j).start_loc &&
    optLtInt (attrOf g i).endTm (attrOf g j).startTm

/-- Lines 46-79: the graph before the utilization / reuse passes: `s`, `t`,
the location node pairs, the trailer start/end nodes, then `src_pool`,
`sink_pool`, `trl_supp` and `trl_rtrn` edges, in source order. -/
def baseGraph (legs : List (StopRec × StopRec)) (locations : List String) : Graph :=
  addRtrnEdges
    (addSuppEdges
      (add_edges_from
        (add_edges_from
          (addEndNodes
            (addStartNodes
              (addLocNodes
                (add_node (add_node {} .s { tag := some "source" })
                  .t { tag := some "target" })
                locations)
              legs)
            legs)
          (locations.map fun z => (NKey.s, NKey.loc z "out")) "src_pool")
        (locations.map fun z => (NKey.loc z "in", NKey.t)) "sink_pool")
      legs)
    legs

/-- Line 82: the keys tagged `trailer_start`, in node order. -/
def trailerStartKeys (tagged : List (NKey × String)) : List NKey :=
  (tagged.filter fun p => p.2 == "trailer_start").map Prod.fst

/-- Line 83: the keys tagged `trailer_end`, in node order. -/
def trailerEndKeys (tagged : List (NKey × String)) : List NKey :=
  (tagged.filter fun p => p.2 == "trailer_end").map Prod.fst

/-- Lines 84-86: all (start, end) pairs agreeing on (Route, Sequence). -/
def utilPairsOf (tagged : List (NKey × String)) : List (NKey × NKey) :=
  (trailerStartKeys tagged).flatMap fun i =>
    (trailerEndKeys tagged).filterMap fun j =>
      if pre2eq i j then some (i, j) else none

/-- Lines 90-93: all (end, start) pairs satisfying the reuse predicate. -/
def reusePairsOf (g1 : Graph) (tagged : List (NKey × String)) : List (NKey × NKey) :=
  (trailerEndKeys tagged).flatMap fun i =>
    (trailerStartKeys tagged).filterMap fun j =>
      if reuseCond g1 i j then some (i, j) else none

/-- Lines 38-95, `build_network_graph`: `none` models the `KeyError` raised
at line 82 when some node lacks a `tag` (which happens exactly when a
destination zip is never an origin zip, so that line 79 implicitly created
an attribute-less pool node). -/
def build_network_graph (rows : List StopRec) : Option Graph :=
  let drv_sched := read_driver_schedule rows
  let locations := uniqueFirst (drv_sched.map fun p => p.1.zip)
  let g := baseGraph drv_sched locations
  match taggedNodes? g with
  | none => none
  | some tagged =>
    let g1 := add_edges_from g (utilPairsOf tagged) "trailer_utilization"
    some (add_edges_from g1 (reusePairsOf g1 tagged) "same_trailer")

/-! ### The constraint model (lines 98-132) -/

abbrev EKey := NKey × NKey

/-- The tags whose flow variables get free capacity (`lb=0`, no `ub`),
line 106; every other tag (only `trailer_utilization`) gets `lb=ub=1`. -/
def freeTags : List String :=
  ["src_pool", "sink_pool", "trl_supp", "trl_rtrn", "same_trailer"]

def edgeKeys (g : Graph) : List EKey :=
  g.edges.map fun e => (e.1, e.2.1)

/-- The edges leaving `k` (`G.neighbors(i)` on a `DiGraph` iterates the
successors). -/
def outEdges (g : Graph) (k : NKey) : List EKey :=
  (g.edges.filter fun e => e.1 == k).map fun e => (e.1, e.2.1)

/-- The edges entering `k` (`[(m, n) for m, n in G.edges() if n == i]`). -/
def inEdges (g : Graph) (k : NKey) : List EKey :=
  (g.edges.filter fun e => e.2.1 == k).map fun e => (e.1, e.2.1)

/-- One linear constraint of the docplex model: the source adds exactly four
shapes (lines 117-130). -/
inductive Con where
  | srcCon (es : List EKey) : Con
  | sinkCon (es : List EKey) : Con
  | consCon (outs ins : List EKey) : Con
  | poolCon (a b : EKey) : Con
  deriving DecidableEq, Repr

/-- Lines 115-130: the constraints contributed by node `k`: the source node
equates its outflow to `v`, the sink equates its inflow to `v`, every other
node gets a conservation equality, plus — when `bal_pool` is set and the
node is a location's `out` side — the pool-balance equality between the
`s -> (loc, 'out')` and `(loc, 'in') -> t` flows. -/
def nodeCons (g : Graph) (bal_pool : Bool) (k : NKey) : List Con :=
  if k = .s then [.srcCon (outEdges g k)]
  else if k = .t then [.sinkCon (inEdges g k)]
  else
    [.consCon (outEdges g k) (inEdges g k)] ++
      match k with
      | .loc z typ =>
        if bal_pool && (attrOf g k).tag == some "location" && typ == "out" then
          [.poolCon (NKey.s, NKey.loc z "out") (NKey.loc z "in", NKey.t)]
        else []
      | _ => []

/-- All constraints of the model, one batch per node in node order. -/
def modelCons (g : Graph) (bal_pool : Bool) : List Con :=
  g.nodes.flatMap fun p => nodeCons g bal_pool p.1

def sumF (f : EKey → ℚ) (es : List EKey) : ℚ := (es.map f).sum

/-- Satisfaction of one constraint by a flow assignment `f` and flow value
`v`. -/
def conSat (f : EKey → ℚ) (v : ℚ) : Con → Prop
  | .srcCon es => sumF f es = v
  | .sinkCon es => sumF f es = v
  | .consCon outs ins => sumF f outs - sumF f ins = 0
  | .poolCon a b => f a - f b = 0

instance (f : EKey → ℚ) (v : ℚ) (c : Con) : Decidable (conSat f v c) := by
  cases c <;> · unfold conSat; infer_instance

/-- Lines 104-109: bounds of the flow variable of one edge: free tags get
`lb=0`, the utilization tag gets `lb=ub=1`. -/
def boundSat (f : EKey → ℚ) (e : NKey × NKey × String) : Prop :=
  if e.2.2 ∈ freeTags then 0 ≤ f (e.1, e.2.1)
  else 1 ≤ f (e.1, e.2.1) ∧ f (e.1, e.2.1) ≤ 1

instance (f : EKey → ℚ) (e : NKey × NKey × String) : Decidable (boundSat f e) := by
  unfold boundSat; infer_instance

/-- A feasible point of the model built in lines 101-130: all edge-variable
bounds, the default lower bound `0 ≤ v` of the docplex continuous variable
`v` (line 112), and every constraint. -/
def IsFeasible (g : Graph) (bal_pool : Bool) (f : EKey → ℚ) (v : ℚ) : Prop :=
  (∀ e ∈ g.edges, boundSat f e) ∧ 0 ≤ v ∧
    ∀ c ∈ modelCons g bal_pool, conSat f v c

instance (g : Graph) (bal_pool : Bool) (f : EKey → ℚ) (v : ℚ) :
    Decidable (IsFeasible g bal_pool f v) := by
  unfold IsFeasible; infer_instance

/-- `q` is the optimal value of the minimization of `v` (line 132). -/
def MinFlowValue (g : Graph) (bal_pool : Bool) (q : ℚ) : Prop :=
  (∃ f v, IsFeasible g bal_pool f v ∧ v = q) ∧
    ∀ f v, IsFeasible g bal_pool f v → q ≤ v

/-- Modelled from the spec: the numeric solving engine (docplex
`Model.solve`, the §4.3 FlowSolver; its code is not part of src/) "must
respect all fixed capacities exactly" and "find the provably minimum `v`
(not merely a feasible one)", and "reports `Infeasible` if no flow value
satisfies all constraints".  `none` is the no-solution outcome, `some (f, v)`
an optimal solution. -/
def solverReturns (g : Graph) (bal_pool : Bool) :
    Option ((EKey → ℚ) × ℚ) → Prop
  | none => ¬∃ f v, IsFeasible g bal_pool f v
  | some fv => IsFeasible g bal_pool fv.1 fv.2 ∧
      ∀ f v, IsFeasible g bal_pool f v → fv.2 ≤ v

/-- Lines 98-144, `solve_min_flow_prob`, as a relation between the input and

the returned Python value (relational because the LP engine is external):
on a solved model the function returns only the dict mapping each edge to
its flow value (line 138-144); when the model has no solution it prints and
falls off the end, returning Python's `None` (modelled by `none`). -/
def solve_min_flow_prob (rows : List StopRec) (bal_pool : Bool)
    (res : Option (List (EKey × ℚ))) : Prop :=
  ∃ g, build_network_graph rows = some g ∧
    ∃ out, solverReturns g bal_pool out ∧
      res = out.map fun fv => (edgeKeys g).map fun e => (e, fv.1 e)

/-! ### Derived notions used in the statements -/

/-- The (Route, Sequence) key of a leg. -/
def legKey (p : StopRec × StopRec) : Int × Int := (p.1.route, p.1.seq)

/-- The location list of `build_network_graph` (line 42): the distinct
origin zips of the legs. -/
def locsOf (rows : List StopRec) : List String :=
  uniqueFirst ((read_driver_schedule rows).map fun p => p.1.zip)

/-- The graph state after line 79 for input `rows`. -/
def baseOf (rows : List StopRec) : Graph :=
  baseGraph (read_driver_schedule rows) (locsOf rows)

/-- The graph state after line 86 (utilization edges added). -/
def utilGraphOf (rows : List StopRec) (tagged : List (NKey × String)) : Graph :=
  add_edges_from (baseOf rows) (utilPairsOf tagged) "trailer_utilization"

/-- The returned graph (line 95). -/
def finalGraphOf (rows : List StopRec) (tagged : List (NKey × String)) : Graph :=
  add_edges_from (utilGraphOf rows tagged)
    (reusePairsOf (utilGraphOf rows tagged) tagged) "same_trailer"

/-- The last element of a list satisfying `q` — the final writer of an
upserted node key when several legs share it. -/
def lastMatch? (q : α → Bool) : List α → Option α
  | [] => none
  | x :: rest =>
    match lastMatch? q rest with
    | some y => some y
    | none => if q x then some x else none

/-- An edge of the graph between two non-terminal nodes (neither Source nor
Sink): the edge relation whose acyclicity §3 of the spec asserts. -/
def nonTermEdge (g : Graph) (x y : NKey) : Prop :=
  (∃ tg, (x, y, tg) ∈ g.edges) ∧ x ≠ .s ∧ x ≠ .t ∧ y ≠ .s ∧ y ≠ .t

/-- Topological level of a non-terminal node: pool-out nodes feed trailer
nodes, which feed pool-in nodes. -/
def levelOf : NKey → Int
  | .loc _ typ => if typ = "out" then 0 else 2
  | .trl _ _ _ => 1
  | _ => 3

/-- Time coordinate of a trailer node (doubled, with ends shifted by one so
that a leg's start strictly precedes its end whenever ready ≤ release). -/
def timeOf (g : Graph) : NKey → Int
  | .trl r sq typ =>
    if typ = "start" then 2 * ((attrOf g (.trl r sq typ)).startTm.getD 0)
    else 2 * ((attrOf g (.trl r sq typ)).endTm.getD 0) + 1
  | _ => 0

/-- The strict order (level, time) lexicographically; every non-terminal
edge of a well-timed built graph increases it. -/
def phiLt (g : Graph) (x y : NKey) : Prop :=
  levelOf x < levelOf y ∨ (levelOf x = levelOf y ∧ timeOf g x < timeOf g y)

/-! ### Concrete inputs used by theorems and witnesses -/

/-- Two legs on the same route, at the same location, sequential in time
(route 1 stops at "A", arrivals 0, 100, 200): the §8 minimality scenario. -/
def rows2 : List StopRec :=
  [⟨1, 1, "A", 0⟩, ⟨1, 2, "A", 100⟩, ⟨1, 3, "A", 200⟩]

def G2 : Graph := (build_network_graph rows2).getD {}

/-- An optimal flow for `rows2`: 2 trailers out of pool "A", one per leg. -/
def f2 : EKey → ℚ := fun e =>
  if e = (.s, .loc "A" "out") then 2
  else if e = (.loc "A" "in", .t) then 2
  else 1

/-- Three single-leg routes: two legs "A"→"B", one leg "B"→"A", all at equal
times so no reuse edge exists; with pool balance required this is
infeasible (location "A" sends 2 but receives 1). -/
def rows7 : List StopRec :=
  [⟨1, 1, "A", 0⟩, ⟨1, 2, "B", 0⟩, ⟨2, 1, "B", 0⟩, ⟨2, 2, "A", 0⟩,
   ⟨3, 1, "A", 0⟩, ⟨3, 2, "B", 0⟩]

def G7 : Graph := (build_network_graph rows7).getD {}

/-- One route whose second stop arrives 100 hours before its first: the
leg's release time (8) precedes its ready time (94), so the graph gets a
reuse edge from the leg's own end back to its own start. -/
def rows9 : List StopRec := [⟨1, 1, "A", 100⟩, ⟨1, 2, "A", 0⟩]

def G9 : Graph := (build_network_graph rows9).getD {}

/-- A schedule with a duplicated (Route, Sequence) stop record. -/
def rowsDup : List StopRec :=
  [⟨1, 1, "A", 0⟩, ⟨1, 1, "A", 0⟩, ⟨1, 2, "A", 100⟩]

/-- The same schedule without the duplicate. -/
def rowsSingle : List StopRec := [⟨1, 1, "A", 0⟩, ⟨1, 2, "A", 100⟩]

/-! ### Helper lemmas -/

theorem boundSat_util (f : EKey → ℚ) (i j : NKey)
    (h : boundSat f (i, j, "trailer_utilization")) : f (i, j) = 1 := by
  have h' : 1 ≤ f (i, j) ∧ f (i, j) ≤ 1 := h
  exact le_antisymm h'.2 h'.1

theorem boundSat_nonneg (f : EKey → ℚ) (e : NKey × NKey × String)
    (h : boundSat f e) : 0 ≤ f (e.1, e.2.1) := by
  unfold boundSat at h
  split at h
  · exact h
  · linarith [h.1, h.2]

theorem build_rows2 : build_network_graph rows2 = some G2 := by decide

theorem G2_feasible : IsFeasible G2 false f2 2 := by
  have hE : G2.edges =
      [(.s, .loc "A" "out", "src_pool"),
       (.loc "A" "in", .t, "sink_pool"),
       (.loc "A" "out", .trl 1 1 "start", "trl_supp"),
       (.loc "A" "out", .trl 1 2 "start", "trl_supp"),
       (.trl 1 1 "end", .loc "A" "in", "trl_rtrn"),
       (.trl 1 2 "end", .loc "A" "in", "trl_rtrn"),
       (.trl 1 1 "start", .trl 1 1 "end", "trailer_utilization"),
       (.trl 1 2 "start", .trl 1 2 "end", "trailer_utilization")] := by rfl
  have hC : modelCons G2 false =
      [.srcCon [(.s, .loc "A" "out")],
       .sinkCon [(.loc "A" "in", .t)],
       .consCon [(.loc "A" "out", .trl 1 1 "start"), (.loc "A" "out", .trl 1 2 "start")]
         [(.s, .loc "A" "out")],
       .consCon [(.loc "A" "in", .t)]
         [(.trl 1 1 "end", .loc "A" "in"), (.trl 1 2 "end", .loc "A" "in")],
       .consCon [(.trl 1 1 "start", .trl 1 1 "end")] [(.loc "A" "out", .trl 1 1 "start")],
       .consCon [(.trl 1 2 "start", .trl 1 2 "end")] [(.loc "A" "out", .trl 1 2 "start")],
       .consCon [(.trl 1 1 "end", .loc "A" "in")] [(.trl 1 1 "start", .trl 1 1 "end")],
       .consCon [(.trl 1 2 "end", .loc "A" "in")] [(.trl 1 2 "start", .trl 1 2 "end")]] := by
    rfl
  refine ⟨?_, by norm_num, ?_⟩
  · rw [hE]
    intro e he
    fin_cases he <;> simp [boundSat, f2, freeTags]
  · rw [hC]
    intro c hc
    fin_cases hc <;> simp [conSat, sumF, f2] <;> norm_num

theorem G2_lower : ∀ f v, IsFeasible G2 false f v → 2 ≤ v := by
  rintro f v ⟨hb, hv, hc⟩
  have h1 := hc (.srcCon [(.s, .loc "A" "out")]) (by decide)
  have h2 := hc (.consCon [(.loc "A" "out", .trl 1 1 "start"),
    (.loc "A" "out", .trl 1 2 "start")] [(.s, .loc "A" "out")]) (by decide)
  have h3 := hc (.consCon [(.trl 1 1 "start", .trl 1 1 "end")]
    [(.loc "A" "out", .trl 1 1 "start")]) (by decide)
  have h4 := hc (.consCon [(.trl 1 2 "start", .trl 1 2 "end")]
    [(.loc "A" "out", .trl 1 2 "start")]) (by decide)
  have b1 := boundSat_util f _ _
    (hb (.trl 1 1 "start", .trl 1 1 "end", "trailer_utilization") (by decide))
  have b2 := boundSat_util f _ _
    (hb (.trl 1 2 "start", .trl 1 2 "end", "trailer_utilization") (by decide))
  simp only [conSat, sumF, List.map_cons, List.map_nil, List.sum_cons,
    List.sum_nil] at h1 h2 h3 h4
  linarith

theorem rows2_solve :
    solve_min_flow_prob rows2 false (some ((edgeKeys G2).map fun e => (e, f2 e))) :=
  ⟨G2, build_rows2, some (f2, 2), ⟨G2_feasible, G2_lower⟩, rfl⟩

/-- C1 (corrected): the model does minimize the single flow-value variable
`v` tied to Source outflow and Sink inflow, but on the graph built from two
legs on the same route at the same location, sequential in time, the
minimum trailer count is exactly 2, not 1: a leg's release time
(next arrival + drop) always exceeds the following same-route leg's ready
time (same arrival − preload), so no Reuse edge joins consecutive legs of
one route and each leg draws its own trailer from the pool. -/
theorem c1_min_trailers_two_sequential_legs :
    MinFlowValue G2 false 2 ∧
      (∀ res, solve_min_flow_prob rows2 false res → res ≠ none) ∧
      (∀ f v, solverReturns G2 false (some (f, v)) → v = 2) := by
  refine ⟨⟨⟨f2, 2, G2_feasible, rfl⟩, G2_lower⟩, ?_, ?_⟩
  · rintro res ⟨g, hg, out, hout, hres⟩
    rw [build_rows2] at hg
    obtain rfl : G2 = g := Option.some.inj hg
    cases out with
    | none => exact absurd ⟨f2, 2, G2_feasible⟩ hout
    | some fv => simp [hres]
  · rintro f v ⟨hfeas, hmin⟩
    exact le_antisymm (hmin f2 2 G2_feasible) (G2_lower f v hfeas)

/-- C1 witness: applying the theorem at the concrete optimal solution and
the concrete returned dictionary. -/
theorem c1_witness :
    (2 : ℚ) = 2 ∧
      some ((edgeKeys G2).map fun e => (e, f2 e)) ≠ none :=
  ⟨c1_min_trailers_two_sequential_legs.2.2 f2 2 ⟨G2_feasible, G2_lower⟩,
    c1_min_trailers_two_sequential_legs.2.1 _ rows2_solve⟩

/-- C1 counterexample: 1 is not the minimum flow value of the two-sequential-
legs scenario (the claim asserted it is). -/
theorem c1_counterexample_min_is_not_one : ¬MinFlowValue G2 false 1 := by
  rintro ⟨⟨f, v, hf, hv⟩, -⟩
  have := G2_lower f v hf
  rw [hv] at this
  norm_num at this

/-- C8 counterexample: on an input with a duplicated (route, sequence) pair
the graph construction succeeds — it does not fail with any error. -/
theorem c8_counterexample_duplicate_accepted :
    ¬(rowsDup.map fun r => (r.route, r.seq)).Nodup ∧
      build_network_graph rowsDup ≠ none := by
  refine ⟨by decide, by decide⟩

/-- C8 (corrected): graph construction performs no duplicate-key validation
at all: a duplicate (route, sequence) stop record is silently accepted, its
nodes and edges upserted over the earlier ones — for an identical duplicate
row the built graph is exactly the graph built without the duplicate. -/
theorem c8_duplicates_silently_merged :
    build_network_graph rowsDup = build_network_graph rowsSingle ∧
      (build_network_graph rowsDup).isSome = true := by
  refine ⟨by decide, by decide⟩

theorem build_rows9 : build_network_graph rows9 = some G9 := by decide

/-- C9 counterexample: for the schedule `rows9` (whose single leg's release
time precedes its ready time) the built graph has a directed cycle among
trailer nodes: start → end by the Utilization edge, end → start by a Reuse
edge. -/
theorem c9_counterexample_cycle :
    build_network_graph rows9 = some G9 ∧
      Relation.TransGen (nonTermEdge G9) (.trl 1 1 "start") (.trl 1 1 "start") := by
  have e1 : nonTermEdge G9 (.trl 1 1 "start") (.trl 1 1 "end") :=
    ⟨⟨"trailer_utilization", by decide⟩, by decide, by decide, by decide, by decide⟩
  have e2 : nonTermEdge G9 (.trl 1 1 "end") (.trl 1 1 "start") :=
    ⟨⟨"same_trailer", by decide⟩, by decide, by decide, by decide, by decide⟩
  exact ⟨build_rows9, Relation.TransGen.head e1 (Relation.TransGen.single e2)⟩

theorem build_rows7 : build_network_graph rows7 = some G7 := by decide

theorem G7_infeasible : ¬∃ f v, IsFeasible G7 true f v := by
  rintro ⟨f, v, hb, hv, hc⟩
  have hp := hc (.poolCon (.s, .loc "A" "out") (.loc "A" "in", .t)) (by decide)
  have h2 := hc (.consCon [(.loc "A" "out", .trl 1 1 "start"),
    (.loc "A" "out", .trl 3 1 "start")] [(.s, .loc "A" "out")]) (by decide)
  have h3 := hc (.consCon [(.loc "A" "in", .t)]
    [(.trl 2 1 "end", .loc "A" "in")]) (by decide)
  have h4 := hc (.consCon [(.trl 1 1 "start", .trl 1 1 "end")]
    [(.loc "A" "out", .trl 1 1 "start")]) (by decide)
  have h5 := hc (.consCon [(.trl 3 1 "start", .trl 3 1 "end")]
    [(.loc "A" "out", .trl 3 1 "start")]) (by decide)
  have h6 := hc (.consCon [(.trl 2 1 "end", .loc "A" "in")]
    [(.trl 2 1 "start", .trl 2 1 "end")]) (by decide)
  have b1 := boundSat_util f _ _
    (hb (.trl 1 1 "start", .trl 1 1 "end", "trailer_utilization") (by decide))
  have b2 := boundSat_util f _ _
    (hb (.trl 3 1 "start", .trl 3 1 "end", "trailer_utilization") (by decide))
  have b3 := boundSat_util f _ _
    (hb (.trl 2 1 "start", .trl 2 1 "end", "trailer_utilization") (by decide))
  simp only [conSat, sumF, List.map_cons, List.map_nil, List.sum_cons,
    List.sum_nil] at hp h2 h3 h4 h5 h6
  linarith

theorem rows7_solve_none : solve_min_flow_prob rows7 true none :=
  ⟨G7, build_rows7, none, G7_infeasible, rfl⟩

/-- C7 (code bug): with `bal_pool` on an unbalanced scenario the model is
infeasible; the function then prints a message and returns Python's `None`
rather than a typed `Infeasible` error, and on success it returns only the
per-edge flow dictionary — the objective value is printed (line 140) but
never returned.  The theorem evaluates the code at the failing input: every
outcome the function can return there is `None`. -/
theorem c7_returns_none_not_typed_error :
    (¬∃ f v, IsFeasible G7 true f v) ∧
      solve_min_flow_prob rows7 true none ∧
      ∀ res, solve_min_flow_prob rows7 true res → res = none := by
  refine ⟨G7_infeasible, rows7_solve_none, ?_⟩
  rintro res ⟨g, hg, out, hout, hres⟩
  rw [build_rows7] at hg
  obtain rfl : G7 = g := Option.some.inj hg
  cases out with
  | none => simpa using hres
  | some fv => exact absurd ⟨fv.1, fv.2, hout.1⟩ G7_infeasible

/-- C7 witness: the theorem applied at the concrete outcome `none`. -/
theorem c7_witness :
    solve_min_flow_prob rows7 true none ∧
      (none : Option (List (EKey × ℚ))) = none :=
  ⟨rows7_solve_none,
    c7_returns_none_not_typed_error.2.2 none rows7_solve_none⟩

/-! ### Primitive lemmas about the graph operations -/

theorem mem_of_upsertNode {l : List (NKey × NAttr)} {k : NKey} {a : NAttr} :
    ∀ q ∈ upsertNode l k a, q ∈ l ∨ q = (k, a) := by
  induction l with
  | nil => intro q hq; simp [upsertNode] at hq; simp [hq]
  | cons p rest ih =>
    intro q hq
    unfold upsertNode at hq
    split at hq
    · rcases List.mem_cons.1 hq with h | h
      · exact Or.inr h
      · exact Or.inl (List.mem_cons_of_mem _ h)
    · rcases List.mem_cons.1 hq with h | h
      · exact Or.inl (h ▸ List.mem_cons_self _ _)
      · rcases ih q h with h' | h'
        · exact Or.inl (List.mem_cons_of_mem _ h')
        · exact Or.inr h'

theorem keys_upsertNode {l : List (NKey × NAttr)} {k : NKey} {a : NAttr} {x : NKey} :
    x ∈ (upsertNode l k a).map Prod.fst ↔ x ∈ l.map Prod.fst ∨ x = k := by
  induction l with
  | nil => simp [upsertNode]
  | cons p rest ih =>
    unfold upsertNode
    split
    next h =>
      simp only [List.map_cons, List.mem_cons, h]
      tauto
    next h =>
      simp only [List.map_cons, List.mem_cons, ih]
      tauto

theorem find?_upsertNode_self (l : List (NKey × NAttr)) (k : NKey) (a : NAttr) :
    ((upsertNode l k a).find? fun p => p.1 == k) = some (k, a) := by
  induction l with
  | nil => simp [upsertNode]
  | cons p rest ih =>
    unfold upsertNode
    split
    next h => exact List.find?_cons_of_pos _ (by simp)
    next h =>
      rw [List.find?_cons_of_neg _ (by simpa using h)]
      exact ih

theorem find?_upsertNode_ne (l : List (NKey × NAttr)) (k : NKey) (a : NAttr)
    (k' : NKey) (hne : k' ≠ k) :
    ((upsertNode l k a).find? fun p => p.1 == k') = l.find? fun p => p.1 == k' := by
  induction l with
  | nil =>
    unfold upsertNode
    rw [List.find?_cons_of_neg _ (by simpa using Ne.symm hne), List.find?_nil]
  | cons p rest ih =>
    unfold upsertNode
    split
    next h =>
      rw [List.find?_cons_of_neg _ (by simpa using Ne.symm hne),
        List.find?_cons_of_neg _ (by simp [h]; exact Ne.symm hne)]
    next h =>
      by_cases hp : p.1 = k'
      · rw [List.find?_cons_of_pos _ (by simpa using hp),
          List.find?_cons_of_pos _ (by simpa using hp)]
      · rw [List.find?_cons_of_neg _ (by simpa using hp),
          List.find?_cons_of_neg _ (by simpa using hp)]
        exact ih

theorem keys_nodup_upsertNode {l : List (NKey × NAttr)} {k : NKey} {a : NAttr}
    (h : (l.map Prod.fst).Nodup) : ((upsertNode l k a).map Prod.fst).Nodup := by
  induction l with
  | nil => simp [upsertNode]
  | cons p rest ih =>
    simp only [List.map_cons, List.nodup_cons] at h
    unfold upsertNode
    split
    next hk =>
      simp only [List.map_cons, List.nodup_cons]
      exact ⟨by rw [← hk]; exact h.1, h.2⟩
    next hk =>
      simp only [List.map_cons, List.nodup_cons]
      refine ⟨fun hmem => ?_, ih h.2⟩
      rcases keys_upsertNode.1 hmem with h' | h'
      · exact h.1 h'
      · exact hk h'

theorem hasNode_iff {g : Graph} {k : NKey} :
    hasNode g k = true ↔ k ∈ g.nodes.map Prod.fst := by
  simp [hasNode, List.any_eq_true, List.mem_map]

theorem attrOf_add_node_self (g : Graph) (k : NKey) (a : NAttr) :
    attrOf (add_node g k a) k = a := by
  simp [attrOf, add_node, find?_upsertNode_self]

theorem attrOf_add_node_ne (g : Graph) (k : NKey) (a : NAttr) (k' : NKey)
    (hne : k' ≠ k) : attrOf (add_node g k a) k' = attrOf g k' := by
  simp [attrOf, add_node, find?_upsertNode_ne _ _ _ _ hne]

theorem mem_of_add_node {g : Graph} {k : NKey} {a : NAttr} :
    ∀ q ∈ (add_node g k a).nodes, q ∈ g.nodes ∨ q = (k, a) :=
  mem_of_upsertNode

theorem keys_add_node {g : Graph} {k : NKey} {a : NAttr} {x : NKey} :
    x ∈ (add_node g k a).nodes.map Prod.fst ↔ x ∈ g.nodes.map Prod.fst ∨ x = k :=
  keys_upsertNode

theorem attrOf_ensureNode (g : Graph) (k k' : NKey) :
    attrOf (ensureNode g k) k' = attrOf g k' := by
  unfold ensureNode
  split
  next => rfl
  next =>
    show ((((g.nodes ++ [(k, ({} : NAttr))]).find? fun p => p.1 == k')).map
      Prod.snd).getD {} = _
    rw [List.find?_append]
    cases hf : g.nodes.find? fun p => p.1 == k' with
    | some q => simp [attrOf, hf]
    | none =>
      by_cases hk : k = k'
      · subst hk
        simp [attrOf, hf, List.find?]
      · have hb : (k == k') = false := by simpa using hk
        simp [attrOf, hf, List.find?, hb]

theorem mem_of_ensureNode {g : Graph} {k : NKey} :
    ∀ q ∈ (ensureNode g k).nodes, q ∈ g.nodes ∨ q = (k, ({} : NAttr)) := by
  intro q hq
  unfold ensureNode at hq
  split at hq
  · exact Or.inl hq
  · rcases List.mem_append.1 hq with h | h
    · exact Or.inl h
    · exact Or.inr (by simpa using h)

theorem mem_ensureNode_of_mem {g : Graph} {k : NKey} :
    ∀ q ∈ g.nodes, q ∈ (ensureNode g k).nodes := by
  intro q hq
  unfold ensureNode
  split
  · exact hq
  · exact List.mem_append_left _ hq

theorem keys_nodup_ensureNode {g : Graph} {k : NKey}
    (h : (g.nodes.map Prod.fst).Nodup) :
    ((ensureNode g k).nodes.map Prod.fst).Nodup := by
  unfold ensureNode
  split
  next => exact h
  next hk =>
    show ((g.nodes ++ [(k, ({} : NAttr))]).map Prod.fst).Nodup
    rw [List.map_append]
    simp only [List.map_cons, List.map_nil]
    rw [List.nodup_append]
    refine ⟨h, List.nodup_singleton _, ?_⟩
    intro x hx hx'
    simp only [List.mem_singleton] at hx'
    subst hx'
    exact hk (hasNode_iff.2 hx)

theorem edges_ensureNode (g : Graph) (k : NKey) : (ensureNode g k).edges = g.edges := by
  unfold ensureNode
  split <;> rfl

theorem edges_add_edge (g : Graph) (i j : NKey) (tg : String) :
    (add_edge g i j tg).edges = upsertEdge g.edges i j tg := by
  show upsertEdge (ensureNode (ensureNode g i) j).edges i j tg = _
  rw [edges_ensureNode, edges_ensureNode]

theorem nodes_add_edge (g : Graph) (i j : NKey) (tg : String) :
    (add_edge g i j tg).nodes = (ensureNode (ensureNode g i) j).nodes := rfl

theorem attrOf_add_edge (g : Graph) (i j : NKey) (tg : String) (k : NKey) :
    attrOf (add_edge g i j tg) k = attrOf g k := by
  have h : attrOf (add_edge g i j tg) k = attrOf (ensureNode (ensureNode g i) j) k := rfl
  rw [h, attrOf_ensureNode, attrOf_ensureNode]

theorem mem_of_upsertEdge {l : List (NKey × NKey × String)} {i j : NKey} {tg : String} :
    ∀ e ∈ upsertEdge l i j tg, e ∈ l ∨ e = (i, j, tg) := by
  induction l with
  | nil => intro e he; simp [upsertEdge] at he; simp [he]
  | cons p rest ih =>
    intro e he
    unfold upsertEdge at he
    split at he
    · rcases List.mem_cons.1 he with h | h
      · exact Or.inr h
      · exact Or.inl (List.mem_cons_of_mem _ h)
    · rcases List.mem_cons.1 he with h | h
      · exact Or.inl (h ▸ List.mem_cons_self _ _)
      · rcases ih e h with h' | h'
        · exact Or.inl (List.mem_cons_of_mem _ h')
        · exact Or.inr h'

theorem self_mem_upsertEdge (l : List (NKey × NKey × String)) (i j : NKey) (tg : String) :
    (i, j, tg) ∈ upsertEdge l i j tg := by
  induction l with
  | nil => simp [upsertEdge]
  | cons p rest ih =>
    unfold upsertEdge
    split
    next => exact List.mem_cons_self _ _
    next => exact List.mem_cons_of_mem _ ih

theorem mem_upsertEdge_of_same_tag {l : List (NKey × NKey × String)}
    {a b i j : NKey} {tg : String} (h : (a, b, tg) ∈ l) :
    (a, b, tg) ∈ upsertEdge l i j tg := by
  induction l with
  | nil => simp at h
  | cons p rest ih =>
    unfold upsertEdge
    rcases List.mem_cons.1 h with h' | h'
    · split
      next hc =>
        rw [← h'] at hc
        obtain ⟨h1, h2⟩ := hc
        simp only at h1 h2
        rw [h1, h2]
        exact List.mem_cons_self _ _
      next => exact h' ▸ List.mem_cons_self _ _
    · split
      next => exact List.mem_cons_of_mem _ h'
      next => exact List.mem_cons_of_mem _ (ih h')

theorem mem_upsertEdge_of_ne {l : List (NKey × NKey × String)} {i j : NKey}
    {tg : String} {e : NKey × NKey × String} (h : e ∈ l)
    (hne : ¬(e.1 = i ∧ e.2.1 = j)) : e ∈ upsertEdge l i j tg := by
  induction l with
  | nil => simp at h
  | cons p rest ih =>
    unfold upsertEdge
    rcases List.mem_cons.1 h with h' | h'
    · split
      next hc => exact absurd (by rw [h']; exact hc) hne
      next => exact h' ▸ List.mem_cons_self _ _
    · split
      next => exact List.mem_cons_of_mem _ h'
      next => exact List.mem_cons_of_mem _ (ih h')

theorem ekeys_upsertEdge {l : List (NKey × NKey × String)} {i j x y : NKey}
    {tg : String} :
    (x, y) ∈ (upsertEdge l i j tg).map (fun e => (e.1, e.2.1)) ↔
      (x, y) ∈ l.map (fun e => (e.1, e.2.1)) ∨ (x = i ∧ y = j) := by
  induction l with
  | nil => simp [upsertEdge, and_comm]
  | cons p rest ih =>
    unfold upsertEdge
    split
    next hc =>
      simp only [List.map_cons, List.mem_cons, ← hc.1, ← hc.2, Prod.mk.injEq]
      tauto
    next hc =>
      simp only [List.map_cons, List.mem_cons, ih, Prod.mk.injEq]
      tauto

theorem ekeys_nodup_upsertEdge {l : List (NKey × NKey × String)} {i j : NKey}
    {tg : String} (h : (l.map fun e => (e.1, e.2.1)).Nodup) :
    ((upsertEdge l i j tg).map fun e => (e.1, e.2.1)).Nodup := by
  induction l with
  | nil => simp [upsertEdge]
  | cons p rest ih =>
    simp only [List.map_cons, List.nodup_cons] at h
    unfold upsertEdge
    split
    next hc =>
      simp only [List.map_cons, List.nodup_cons]
      refine ⟨?_, h.2⟩
      simpa only [← hc.1, ← hc.2] using h.1
    next hc =>
      simp only [List.map_cons, List.nodup_cons]
      refine ⟨fun hm => ?_, ih h.2⟩
      rcases ekeys_upsertEdge.1 hm with h' | h'
      · exact h.1 h'
      · exact hc ⟨h'.1, h'.2⟩

theorem add_edges_from_cons (g : Graph) (p : NKey × NKey) (ps : List (NKey × NKey))
    (tg : String) :
    add_edges_from g (p :: ps) tg = add_edges_from (add_edge g p.1 p.2 tg) ps tg := rfl

theorem mem_edges_of_add_edges_from {ps : List (NKey × NKey)} {tg : String} :
    ∀ {g : Graph}, ∀ e ∈ (add_edges_from g ps tg).edges,
      e ∈ g.edges ∨ ∃ p ∈ ps, e = (p.1, p.2, tg) := by
  induction ps with
  | nil => intro g e he; exact Or.inl he
  | cons p rest ih =>
    intro g e he
    rw [add_edges_from_cons] at he
    rcases ih e he with h | h
    · rw [edges_add_edge] at h
      rcases mem_of_upsertEdge e h with h' | h'
      · exact Or.inl h'
      · exact Or.inr ⟨p, List.mem_cons_self _ _, h'⟩
    · obtain ⟨p', hp', he'⟩ := h
      exact Or.inr ⟨p', List.mem_cons_of_mem _ hp', he'⟩

theorem mem_add_edges_from_of_same_tag {ps : List (NKey × NKey)} {tg : String}
    {a b : NKey} : ∀ {g : Graph}, (a, b, tg) ∈ g.edges →
      (a, b, tg) ∈ (add_edges_from g ps tg).edges := by
  induction ps with
  | nil => intro g h; exact h
  | cons p rest ih =>
    intro g h
    rw [add_edges_from_cons]
    exact ih (by rw [edges_add_edge]; exact mem_upsertEdge_of_same_tag h)

theorem mem_add_edges_from_of_pair {ps : List (NKey × NKey)} {tg : String}
    {p₀ : NKey × NKey} (hp : p₀ ∈ ps) :
    ∀ {g : Graph}, (p₀.1, p₀.2, tg) ∈ (add_edges_from g ps tg).edges := by
  induction ps with
  | nil => simp at hp
  | cons p rest ih =>
    intro g
    rw [add_edges_from_cons]
    rcases List.mem_cons.1 hp with h | h
    · subst h
      exact mem_add_edges_from_of_same_tag
        (by rw [edges_add_edge]; exact self_mem_upsertEdge _ _ _ _)
    · exact ih h

theorem mem_add_edges_from_of_ne {ps : List (NKey × NKey)} {tg : String}
    {e : NKey × NKey × String} :
    ∀ {g : Graph}, e ∈ g.edges → (∀ p ∈ ps, ¬(e.1 = p.1 ∧ e.2.1 = p.2)) →
      e ∈ (add_edges_from g ps tg).edges := by
  induction ps with
  | nil => intro g he _; exact he
  | cons p rest ih =>
    intro g he hne
    rw [add_edges_from_cons]
    refine ih ?_ fun p' hp' => hne p' (List.mem_cons_of_mem _ hp')
    rw [edges_add_edge]
    exact mem_upsertEdge_of_ne he (hne p (List.mem_cons_self _ _))

theorem attrOf_add_edges_from {ps : List (NKey × NKey)} {tg : String} {k : NKey} :
    ∀ {g : Graph}, attrOf (add_edges_from g ps tg) k = attrOf g k := by
  induction ps with
  | nil => intro g; rfl
  | cons p rest ih =>
    intro g
    rw [add_edges_from_cons, ih, attrOf_add_edge]

theorem mem_nodes_add_edge_of_mem {g : Graph} {i j : NKey} {tg : String}
    {q : NKey × NAttr} (h : q ∈ g.nodes) : q ∈ (add_edge g i j tg).nodes := by
  rw [nodes_add_edge]
  exact mem_ensureNode_of_mem _ (mem_ensureNode_of_mem _ h)

theorem mem_nodes_of_add_edge {g : Graph} {i j : NKey} {tg : String}
    {q : NKey × NAttr} (h : q ∈ (add_edge g i j tg).nodes) :
    q ∈ g.nodes ∨ q = (i, ({} : NAttr)) ∨ q = (j, ({} : NAttr)) := by
  rw [nodes_add_edge] at h
  rcases mem_of_ensureNode _ h with h' | h'
  · rcases mem_of_ensureNode _ h' with h'' | h''
    · exact Or.inl h''
    · exact Or.inr (Or.inl h'')
  · exact Or.inr (Or.inr h')

theorem mem_nodes_add_edges_from_of_mem {ps : List (NKey × NKey)} {tg : String}
    {q : NKey × NAttr} : ∀ {g : Graph}, q ∈ g.nodes →
      q ∈ (add_edges_from g ps tg).nodes := by
  induction ps with
  | nil => intro g h; exact h
  | cons p rest ih =>
    intro g h
    rw [add_edges_from_cons]
    exact ih (mem_nodes_add_edge_of_mem h)

theorem mem_nodes_of_add_edges_from {ps : List (NKey × NKey)} {tg : String}
    {q : NKey × NAttr} : ∀ {g : Graph}, q ∈ (add_edges_from g ps tg).nodes →
      q ∈ g.nodes ∨ ∃ p ∈ ps, q = (p.1, ({} : NAttr)) ∨ q = (p.2, ({} : NAttr)) := by
  induction ps with
  | nil => intro g h; exact Or.inl h
  | cons p rest ih =>
    intro g h
    rw [add_edges_from_cons] at h
    rcases ih h with h' | h'
    · rcases mem_nodes_of_add_edge h' with h'' | h''
      · exact Or.inl h''
      · exact Or.inr ⟨p, List.mem_cons_self _ _, h''⟩
    · obtain ⟨p', hp', hq⟩ := h'
      exact Or.inr ⟨p', List.mem_cons_of_mem _ hp', hq⟩

theorem keys_nodup_add_edge {g : Graph} {i j : NKey} {tg : String}
    (h : (g.nodes.map Prod.fst).Nodup) :
    ((add_edge g i j tg).nodes.map Prod.fst).Nodup := by
  rw [nodes_add_edge]
  exact keys_nodup_ensureNode (keys_nodup_ensureNode h)

theorem keys_nodup_add_edges_from {ps : List (NKey × NKey)} {tg : String} :
    ∀ {g : Graph}, (g.nodes.map Prod.fst).Nodup →
      ((add_edges_from g ps tg).nodes.map Prod.fst).Nodup := by
  induction ps with
  | nil => intro g h; exact h
  | cons p rest ih =>
    intro g h
    rw [add_edges_from_cons]
    exact ih (keys_nodup_add_edge h)

theorem ekeys_nodup_add_edges_from {ps : List (NKey × NKey)} {tg : String} :
    ∀ {g : Graph}, (g.edges.map fun e => (e.1, e.2.1)).Nodup →
      ((add_edges_from g ps tg).edges.map fun e => (e.1, e.2.1)).Nodup := by
  induction ps with
  | nil => intro g h; exact h
  | cons p rest ih =>
    intro g h
    rw [add_edges_from_cons]
    refine ih ?_
    rw [edges_add_edge]
    exact ekeys_nodup_upsertEdge h

theorem lastMatch?_mem {α : Type} {q : α → Bool} {l : List α} {x : α}
    (h : lastMatch? q l = some x) : x ∈ l ∧ q x = true := by
  induction l with
  | nil => simp [lastMatch?] at h
  | cons y rest ih =>
    unfold lastMatch? at h
    cases hr : lastMatch? q rest with
    | some z =>
      rw [hr] at h
      obtain rfl : z = x := by simpa using h
      exact ⟨List.mem_cons_of_mem _ (ih hr).1, (ih hr).2⟩
    | none =>
      rw [hr] at h
      by_cases hq : q y = true
      · rw [if_pos hq] at h
        obtain rfl : y = x := by simpa using h
        exact ⟨List.mem_cons_self _ _, hq⟩
      · rw [if_neg hq] at h
        simp at h

theorem lastMatch?_eq_none {α : Type} {q : α → Bool} {l : List α}
    (h : ∀ x ∈ l, q x = false) : lastMatch? q l = none := by
  induction l with
  | nil => rfl
  | cons y rest ih =>
    unfold lastMatch?
    rw [ih fun x hx => h x (List.mem_cons_of_mem _ hx)]
    simp [h y (List.mem_cons_self _ _)]

theorem lastMatch?_isSome_of_mem {α : Type} {q : α → Bool} {l : List α} {x : α}
    (hx : x ∈ l) (hqx : q x = true) : ∃ y, lastMatch? q l = some y := by
  induction l with
  | nil => simp at hx
  | cons a as ih =>
    unfold lastMatch?
    cases ha : lastMatch? q as with
    | some b => exact ⟨b, rfl⟩
    | none =>
      rcases List.mem_cons.1 hx with rfl | h'
      · rw [if_pos hqx]
        exact ⟨x, rfl⟩
      · obtain ⟨y, hy⟩ := ih h'
        rw [ha] at hy
        simp at hy

theorem lastMatch?_unique {α : Type} {q : α → Bool} {l : List α} {x : α}
    (hx : x ∈ l) (hqx : q x = true) (huniq : ∀ y ∈ l, q y = true → y = x) :
    lastMatch? q l = some x := by
  obtain ⟨y, hy⟩ := lastMatch?_isSome_of_mem hx hqx
  have hmem := lastMatch?_mem hy
  rw [hy, huniq y hmem.1 hmem.2]

theorem attrOf_foldl_add_node {α : Type} (kf : α → NKey) (af : α → NAttr)
    (l : List α) : ∀ (g : Graph) (k : NKey),
      attrOf (l.foldl (fun h x => add_node h (kf x) (af x)) g) k =
        match lastMatch? (fun x => kf x == k) l with
        | some x => af x
        | none => attrOf g k := by
  induction l with
  | nil => intro g k; rfl
  | cons x rest ih =>
    intro g k
    rw [List.foldl_cons, ih]
    cases hlm : lastMatch? (fun y => kf y == k) rest with
    | some y => simp [lastMatch?, hlm]
    | none =>
      simp only [lastMatch?, hlm]
      by_cases hk : kf x = k
      · rw [if_pos (by simpa using hk), ← hk]
        exact attrOf_add_node_self _ _ _
      · rw [if_neg (by simpa using hk)]
        exact attrOf_add_node_ne _ _ _ _ fun e => hk e.symm

theorem keys_foldl_add_node {α : Type} (kf : α → NKey) (af : α → NAttr)
    (l : List α) : ∀ (g : Graph) (k : NKey),
      (k ∈ (l.foldl (fun h x => add_node h (kf x) (af x)) g).nodes.map Prod.fst ↔
        (∃ x ∈ l, kf x = k) ∨ k ∈ g.nodes.map Prod.fst) := by
  induction l with
  | nil => intro g k; simp
  | cons x rest ih =>
    intro g k
    rw [List.foldl_cons, ih, keys_add_node]
    constructor
    · rintro (h | (h | h))
      · obtain ⟨y, hy, hk⟩ := h
        exact Or.inl ⟨y, List.mem_cons_of_mem _ hy, hk⟩
      · exact Or.inr h
      · exact Or.inl ⟨x, List.mem_cons_self _ _, h.symm⟩
    · rintro (⟨y, hy, hk⟩ | h)
      · rcases List.mem_cons.1 hy with rfl | hy'
        · exact Or.inr (Or.inr hk.symm)
        · exact Or.inl ⟨y, hy', hk⟩
      · exact Or.inr (Or.inl h)

theorem mem_of_foldl_add_node {α : Type} (kf : α → NKey) (af : α → NAttr)
    (l : List α) : ∀ (g : Graph), ∀ q ∈ (l.foldl (fun h x => add_node h (kf x) (af x)) g).nodes,
      q ∈ g.nodes ∨ ∃ x ∈ l, q = (kf x, af x) := by
  induction l with
  | nil => intro g q hq; exact Or.inl hq
  | cons x rest ih =>
    intro g q hq
    rw [List.foldl_cons] at hq
    rcases ih _ q hq with h | h
    · rcases mem_of_add_node q h with h' | h'
      · exact Or.inl h'
      · exact Or.inr ⟨x, List.mem_cons_self _ _, h'⟩
    · obtain ⟨y, hy, hq'⟩ := h
      exact Or.inr ⟨y, List.mem_cons_of_mem _ hy, hq'⟩

theorem keys_nodup_foldl_add_node {α : Type} (kf : α → NKey) (af : α → NAttr)
    (l : List α) : ∀ {g : Graph}, (g.nodes.map Prod.fst).Nodup →
      ((l.foldl (fun h x => add_node h (kf x) (af x)) g).nodes.map Prod.fst).Nodup := by
  induction l with
  | nil => intro g h; exact h
  | cons x rest ih =>
    intro g h
    rw [List.foldl_cons]
    exact ih (keys_nodup_upsertNode h)

theorem mem_uniqueFirst {l : List String} {x : String} : x ∈ uniqueFirst l ↔ x ∈ l := by
  have haux : ∀ (l acc : List String),
      x ∈ l.foldl (fun acc z => if z ∈ acc then acc else acc ++ [z]) acc ↔
        x ∈ acc ∨ x ∈ l := by
    intro l
    induction l with
    | nil => intro acc; simp
    | cons z rest ih =>
      intro acc
      rw [List.foldl_cons, ih]
      by_cases hz : z ∈ acc
      · rw [if_pos hz]
        constructor
        · rintro (h | h)
          · exact Or.inl h
          · exact Or.inr (List.mem_cons_of_mem _ h)
        · rintro (h | h)
          · exact Or.inl h
          · rcases List.mem_cons.1 h with rfl | h'
            · exact Or.inl hz
            · exact Or.inr h'
      · rw [if_neg hz]
        simp only [List.mem_append, List.mem_singleton, List.mem_cons]
        tauto
  unfold uniqueFirst
  rw [haux]
  simp

theorem find?_eq_of_mem_of_nodup {l : List (NKey × NAttr)}
    (hnd : (l.map Prod.fst).Nodup) {k : NKey} {a : NAttr} (h : (k, a) ∈ l) :
    (l.find? fun p => p.1 == k) = some (k, a) := by
  induction l with
  | nil => simp at h
  | cons p rest ih =>
    simp only [List.map_cons, List.nodup_cons] at hnd
    rcases List.mem_cons.1 h with h' | h'
    · rw [← h']
      exact List.find?_cons_of_pos _ (by simp)
    · have hne : ¬p.1 = k := by
        intro e
        exact hnd.1 (e ▸ List.mem_map.2 ⟨(k, a), h', rfl⟩)
      rw [List.find?_cons_of_neg _ (by simpa using hne)]
      exact ih hnd.2 h'

theorem attr_eq_of_mem_of_nodup {g : Graph} (hnd : (g.nodes.map Prod.fst).Nodup)
    {k : NKey} {a : NAttr} (h : (k, a) ∈ g.nodes) : attrOf g k = a := by
  unfold attrOf
  rw [find?_eq_of_mem_of_nodup hnd h]
  rfl

/-- The attributes of any key in the pre-utilization graph, as a cascade of
last-writer lookups: the end-node pass wrote last, then the start-node pass,
then the location pass, then the source/target nodes. -/
theorem attrOf_baseGraph (legs : List (StopRec × StopRec)) (locations : List String)
    (k : NKey) :
    attrOf (baseGraph legs locations) k =
      match lastMatch? (fun p => endKey p == k) legs with
      | some p => endAttr p
      | none =>
        match lastMatch? (fun p => startKey p == k) legs with
        | some p => startAttr p
        | none =>
          match lastMatch? (fun z => z == k)
              (locations.flatMap fun z => [NKey.loc z "out", NKey.loc z "in"]) with
          | some _ => { tag := some "location" }
          | none => attrOf (add_node (add_node {} .s { tag := some "source" })
              .t { tag := some "target" }) k := by
  unfold baseGraph addRtrnEdges addSuppEdges
  rw [attrOf_add_edges_from, attrOf_add_edges_from, attrOf_add_edges_from,
    attrOf_add_edges_from]
  unfold addEndNodes addStartNodes addLocNodes
  rw [attrOf_foldl_add_node endKey endAttr]
  cases lastMatch? (fun p => endKey p == k) legs with
  | some p => rfl
  | none =>
    simp only
    rw [attrOf_foldl_add_node startKey startAttr]
    cases lastMatch? (fun p => startKey p == k) legs with
    | some p => rfl
    | none =>
      simp only
      rw [attrOf_foldl_add_node (fun z => z) (fun _ => { tag := some "location" })]
      cases lastMatch? (fun z => z == k)
          (locations.flatMap fun z => [NKey.loc z "out", NKey.loc z "in"]) with
      | some z => rfl
      | none => rfl

theorem attrOf_baseGraph_start (legs : List (StopRec × StopRec))
    (locations : List String) (r sq : Int) :
    attrOf (baseGraph legs locations) (.trl r sq "start") =
      match lastMatch? (fun p => startKey p == .trl r sq "start") legs with
      | some p => startAttr p
      | none => {} := by
  rw [attrOf_baseGraph]
  rw [lastMatch?_eq_none (q := fun p => endKey p == NKey.trl r sq "start")
    (fun p _ => by simp [endKey])]
  cases lastMatch? (fun p => startKey p == NKey.trl r sq "start") legs with
  | some p => rfl
  | none =>
    simp only
    rw [lastMatch?_eq_none (fun z hz => ?_)]
    · simp only
      rw [attrOf_add_node_ne _ _ _ _ (by simp), attrOf_add_node_ne _ _ _ _ (by simp)]
      rfl
    · rcases List.mem_flatMap.1 hz with ⟨w, _, hw⟩
      rcases List.mem_cons.1 hw with rfl | hw'
      · simp
      · rcases List.mem_cons.1 hw' with rfl | h
        · simp
        · simp at h

theorem attrOf_baseGraph_end (legs : List (StopRec × StopRec))
    (locations : List String) (r sq : Int) :
    attrOf (baseGraph legs locations) (.trl r sq "end") =
      match lastMatch? (fun p => endKey p == .trl r sq "end") legs with
      | some p => endAttr p
      | none => {} := by
  rw [attrOf_baseGraph]
  cases lastMatch? (fun p => endKey p == NKey.trl r sq "end") legs with
  | some p => rfl
  | none =>
    simp only
    rw [lastMatch?_eq_none (q := fun p => startKey p == NKey.trl r sq "end")
      (fun p _ => by simp [startKey])]
    simp only
    rw [lastMatch?_eq_none (fun z hz => ?_)]
    · simp only
      rw [attrOf_add_node_ne _ _ _ _ (by simp), attrOf_add_node_ne _ _ _ _ (by simp)]
      rfl
    · rcases List.mem_flatMap.1 hz with ⟨w, _, hw⟩
      rcases List.mem_cons.1 hw with rfl | hw'
      · simp
      · rcases List.mem_cons.1 hw' with rfl | h
        · simp
        · simp at h

theorem attrOf_baseGraph_loc (legs : List (StopRec × StopRec))
    (locations : List String) {z : String} (hz : z ∈ locations)
    {typ : String} (htyp : typ = "out" ∨ typ = "in") :
    attrOf (baseGraph legs locations) (.loc z typ) = { tag := some "location" } := by
  rw [attrOf_baseGraph]
  rw [lastMatch?_eq_none (q := fun p => endKey p == NKey.loc z typ)
    (fun p _ => by simp [endKey])]
  simp only
  rw [lastMatch?_eq_none (q := fun p => startKey p == NKey.loc z typ)
    (fun p _ => by simp [startKey])]
  simp only
  have hmem : NKey.loc z typ ∈ locations.flatMap fun w => [NKey.loc w "out", NKey.loc w "in"] := by
    refine List.mem_flatMap.2 ⟨z, hz, ?_⟩
    rcases htyp with rfl | rfl
    · exact List.mem_cons_self _ _
    · exact List.mem_cons_of_mem _ (List.mem_cons_self _ _)
  obtain ⟨y, hy⟩ :=
    lastMatch?_isSome_of_mem (q := fun w => w == NKey.loc z typ) hmem
      (beq_self_eq_true _)
  rw [hy]

theorem key_mem_add_edges_from {ps : List (NKey × NKey)} {tg : String} {k : NKey}
    {g : Graph} (h : k ∈ g.nodes.map Prod.fst) :
    k ∈ (add_edges_from g ps tg).nodes.map Prod.fst := by
  obtain ⟨q, hq, rfl⟩ := List.mem_map.1 h
  exact List.mem_map.2 ⟨q, mem_nodes_add_edges_from_of_mem hq, rfl⟩

theorem keys_nodup_baseGraph (legs : List (StopRec × StopRec))
    (locations : List String) :
    ((baseGraph legs locations).nodes.map Prod.fst).Nodup := by
  unfold baseGraph addRtrnEdges addSuppEdges
  refine keys_nodup_add_edges_from (keys_nodup_add_edges_from
    (keys_nodup_add_edges_from (keys_nodup_add_edges_from ?_)))
  unfold addEndNodes addStartNodes addLocNodes
  refine keys_nodup_foldl_add_node endKey endAttr _
    (keys_nodup_foldl_add_node startKey startAttr _
      (keys_nodup_foldl_add_node (fun z => z) (fun _ => { tag := some "location" }) _ ?_))
  decide

theorem key_mem_baseGraph_start {legs : List (StopRec × StopRec)}
    {locations : List String} {p : StopRec × StopRec} (hp : p ∈ legs) :
    startKey p ∈ (baseGraph legs locations).nodes.map Prod.fst := by
  unfold baseGraph addRtrnEdges addSuppEdges
  refine key_mem_add_edges_from (key_mem_add_edges_from (key_mem_add_edges_from
    (key_mem_add_edges_from ?_)))
  unfold addEndNodes addStartNodes
  rw [keys_foldl_add_node endKey endAttr]
  right
  rw [keys_foldl_add_node startKey startAttr]
  exact Or.inl ⟨p, hp, rfl⟩

theorem key_mem_baseGraph_end {legs : List (StopRec × StopRec)}
    {locations : List String} {p : StopRec × StopRec} (hp : p ∈ legs) :
    endKey p ∈ (baseGraph legs locations).nodes.map Prod.fst := by
  unfold baseGraph addRtrnEdges addSuppEdges
  refine key_mem_add_edges_from (key_mem_add_edges_from (key_mem_add_edges_from
    (key_mem_add_edges_from ?_)))
  unfold addEndNodes
  rw [keys_foldl_add_node endKey endAttr]
  exact Or.inl ⟨p, hp, rfl⟩

theorem key_mem_baseGraph_loc {legs : List (StopRec × StopRec)}
    {locations : List String} {z : String} (hz : z ∈ locations)
    {typ : String} (htyp : typ = "out" ∨ typ = "in") :
    NKey.loc z typ ∈ (baseGraph legs locations).nodes.map Prod.fst := by
  unfold baseGraph addRtrnEdges addSuppEdges
  refine key_mem_add_edges_from (key_mem_add_edges_from (key_mem_add_edges_from
    (key_mem_add_edges_from ?_)))
  unfold addEndNodes addStartNodes addLocNodes
  rw [keys_foldl_add_node endKey endAttr]
  right
  rw [keys_foldl_add_node startKey startAttr]
  right
  rw [keys_foldl_add_node (fun z => z) (fun _ => { tag := some "location" })]
  refine Or.inl ⟨NKey.loc z typ, List.mem_flatMap.2 ⟨z, hz, ?_⟩, rfl⟩
  rcases htyp with rfl | rfl
  · exact List.mem_cons_self _ _
  · exact List.mem_cons_of_mem _ (List.mem_cons_self _ _)

theorem key_provenance_baseGraph {legs : List (StopRec × StopRec)}
    {locations : List String} :
    ∀ k ∈ (baseGraph legs locations).nodes.map Prod.fst,
      k = .s ∨ k = .t ∨ (∃ z ∈ locations, k = .loc z "out" ∨ k = .loc z "in") ∨
      (∃ p ∈ legs, k = startKey p ∨ k = endKey p) ∨
      (∃ p ∈ legs, k = .loc p.1.zip "out" ∨ k = .loc p.2.zip "in") := by
  intro k hk
  obtain ⟨q, hq, rfl⟩ := List.mem_map.1 hk
  unfold baseGraph addRtrnEdges addSuppEdges at hq
  rcases mem_nodes_of_add_edges_from hq with hq | ⟨p', hp', hq⟩
  rotate_left
  · obtain ⟨p, hp, rfl⟩ := List.mem_map.1 hp'
    rcases hq with rfl | rfl
    · exact Or.inr (Or.inr (Or.inr (Or.inl ⟨p, hp, Or.inr rfl⟩)))
    · exact Or.inr (Or.inr (Or.inr (Or.inr ⟨p, hp, Or.inr rfl⟩)))
  rcases mem_nodes_of_add_edges_from hq with hq | ⟨p', hp', hq⟩
  rotate_left
  · obtain ⟨p, hp, rfl⟩ := List.mem_map.1 hp'
    rcases hq with rfl | rfl
    · exact Or.inr (Or.inr (Or.inr (Or.inr ⟨p, hp, Or.inl rfl⟩)))
    · exact Or.inr (Or.inr (Or.inr (Or.inl ⟨p, hp, Or.inl rfl⟩)))
  rcases mem_nodes_of_add_edges_from hq with hq | ⟨p', hp', hq⟩
  rotate_left
  · obtain ⟨z, hz, rfl⟩ := List.mem_map.1 hp'
    rcases hq with rfl | rfl
    · exact Or.inr (Or.inr (Or.inl ⟨z, hz, Or.inr rfl⟩))
    · exact Or.inr (Or.inl rfl)
  rcases mem_nodes_of_add_edges_from hq with hq | ⟨p', hp', hq⟩
  rotate_left
  · obtain ⟨z, hz, rfl⟩ := List.mem_map.1 hp'
    rcases hq with rfl | rfl
    · exact Or.inl rfl
    · exact Or.inr (Or.inr (Or.inl ⟨z, hz, Or.inl rfl⟩))
  unfold addEndNodes at hq
  rcases mem_of_foldl_add_node endKey endAttr _ _ _ hq with hq | ⟨p, hp, rfl⟩
  rotate_left
  · exact Or.inr (Or.inr (Or.inr (Or.inl ⟨p, hp, Or.inr rfl⟩)))
  unfold addStartNodes at hq
  rcases mem_of_foldl_add_node startKey startAttr _ _ _ hq with hq | ⟨p, hp, rfl⟩
  rotate_left
  · exact Or.inr (Or.inr (Or.inr (Or.inl ⟨p, hp, Or.inl rfl⟩)))
  unfold addLocNodes at hq
  rcases mem_of_foldl_add_node (fun z => z) (fun _ => { tag := some "location" }) _ _ _ hq
    with hq | ⟨w, hw, rfl⟩
  rotate_left
  · obtain ⟨z, hz, hw'⟩ := List.mem_flatMap.1 hw
    rcases List.mem_cons.1 hw' with rfl | hw''
    · exact Or.inr (Or.inr (Or.inl ⟨z, hz, Or.inl rfl⟩))
    · rcases List.mem_cons.1 hw'' with rfl | h0
      · exact Or.inr (Or.inr (Or.inl ⟨z, hz, Or.inr rfl⟩))
      · simp at h0
  rcases mem_of_add_node _ hq with hq | rfl
  rotate_left
  · exact Or.inr (Or.inl rfl)
  rcases mem_of_add_node _ hq with hq | rfl
  rotate_left
  · exact Or.inl rfl
  simp [Graph.nodes] at hq

theorem mapM_tag_mem {l : List (NKey × NAttr)} {tagged : List (NKey × String)}
    (h : (l.mapM fun p => p.2.tag.map fun tg => (p.1, tg)) = some tagged) :
    ∀ {k : NKey} {a : NAttr}, (k, a) ∈ l →
      ∃ tg, a.tag = some tg ∧ (k, tg) ∈ tagged := by
  induction l generalizing tagged with
  | nil => intro k a hk; simp at hk
  | cons p rest ih =>
    rw [List.mapM_cons] at h
    cases hp : p.2.tag with
    | none => rw [hp] at h; simp at h
    | some tg0 =>
      rw [hp] at h
      cases hr : rest.mapM fun p => p.2.tag.map fun tg => (p.1, tg) with
      | none => rw [hr] at h; simp at h
      | some tgs =>
        rw [hr] at h
        simp at h
        intro k a hk
        rcases List.mem_cons.1 hk with h' | h'
        · subst h'
          refine ⟨tg0, hp, ?_⟩
          rw [← h]
          exact List.mem_cons_self _ _
        · obtain ⟨tg, hta, htm⟩ := ih hr h'
          exact ⟨tg, hta, by rw [← h]; exact List.mem_cons_of_mem _ htm⟩

theorem mapM_tag_mem_rev {l : List (NKey × NAttr)} {tagged : List (NKey × String)}
    (h : (l.mapM fun p => p.2.tag.map fun tg => (p.1, tg)) = some tagged) :
    ∀ {k : NKey} {tg : String}, (k, tg) ∈ tagged →
      ∃ a, (k, a) ∈ l ∧ a.tag = some tg := by
  induction l generalizing tagged with
  | nil =>
    intro k tg hk
    rw [List.mapM_nil] at h
    obtain rfl : ([] : List (NKey × String)) = tagged := by simpa using h
    simp at hk
  | cons p rest ih =>
    rw [List.mapM_cons] at h
    cases hp : p.2.tag with
    | none => rw [hp] at h; simp at h
    | some tg0 =>
      rw [hp] at h
      cases hr : rest.mapM fun p => p.2.tag.map fun tg => (p.1, tg) with
      | none => rw [hr] at h; simp at h
      | some tgs =>
        rw [hr] at h
        simp at h
        intro k tg hk
        rw [← h] at hk
        rcases List.mem_cons.1 hk with h' | h'
        · injection h' with h1 h2
          refine ⟨p.2, ?_, ?_⟩
          · rw [h1]
            exact List.mem_cons_self _ _
          · rw [hp, h2]
        · obtain ⟨a, ha, hta⟩ := ih hr h'
          exact ⟨a, List.mem_cons_of_mem _ ha, hta⟩

theorem taggedNodes?_mem {g : Graph} {tagged : List (NKey × String)}
    (h : taggedNodes? g = some tagged) :
    ∀ {k : NKey} {a : NAttr}, (k, a) ∈ g.nodes →
      ∃ tg, a.tag = some tg ∧ (k, tg) ∈ tagged :=
  mapM_tag_mem h

theorem taggedNodes?_mem_rev {g : Graph} {tagged : List (NKey × String)}
    (h : taggedNodes? g = some tagged) :
    ∀ {k : NKey} {tg : String}, (k, tg) ∈ tagged →
      ∃ a, (k, a) ∈ g.nodes ∧ a.tag = some tg :=
  mapM_tag_mem_rev h

theorem build_elim {rows : List StopRec} {g : Graph}
    (h : build_network_graph rows = some g) :
    ∃ tagged, taggedNodes? (baseOf rows) = some tagged ∧
      g = finalGraphOf rows tagged := by
  have h' : (match taggedNodes? (baseOf rows) with
      | none => none
      | some tagged => some (finalGraphOf rows tagged)) = some g := h
  cases ht : taggedNodes? (baseOf rows) with
  | none =>
    rw [ht] at h'
    simp at h'
  | some tagged =>
    rw [ht] at h'
    simp only [Option.some.injEq] at h'
    exact ⟨tagged, rfl, h'.symm⟩

theorem edges_add_node (g : Graph) (k : NKey) (a : NAttr) :
    (add_node g k a).edges = g.edges := rfl

theorem edges_foldl_add_node {α : Type} (kf : α → NKey) (af : α → NAttr)
    (l : List α) : ∀ (g : Graph),
      (l.foldl (fun h x => add_node h (kf x) (af x)) g).edges = g.edges := by
  induction l with
  | nil => intro g; rfl
  | cons x rest ih => intro g; rw [List.foldl_cons, ih, edges_add_node]

/-- Every edge of the pre-utilization graph is one of the four pool /
supply / return shapes. -/
theorem mem_edges_baseGraph {legs : List (StopRec × StopRec)}
    {locations : List String} :
    ∀ e ∈ (baseGraph legs locations).edges,
      (∃ z ∈ locations, e = (.s, .loc z "out", "src_pool")) ∨
      (∃ z ∈ locations, e = (.loc z "in", .t, "sink_pool")) ∨
      (∃ p ∈ legs, e = (.loc p.1.zip "out", startKey p, "trl_supp")) ∨
      (∃ p ∈ legs, e = (endKey p, .loc p.2.zip "in", "trl_rtrn")) := by
  intro e he
  unfold baseGraph addRtrnEdges addSuppEdges at he
  rcases mem_edges_of_add_edges_from e he with he | ⟨pr, hpr, rfl⟩
  rotate_left
  · obtain ⟨p, hp, rfl⟩ := List.mem_map.1 hpr
    exact Or.inr (Or.inr (Or.inr ⟨p, hp, rfl⟩))
  rcases mem_edges_of_add_edges_from e he with he | ⟨pr, hpr, rfl⟩
  rotate_left
  · obtain ⟨p, hp, rfl⟩ := List.mem_map.1 hpr
    exact Or.inr (Or.inr (Or.inl ⟨p, hp, rfl⟩))
  rcases mem_edges_of_add_edges_from e he with he | ⟨pr, hpr, rfl⟩
  rotate_left
  · obtain ⟨z, hz, rfl⟩ := List.mem_map.1 hpr
    exact Or.inr (Or.inl ⟨z, hz, rfl⟩)
  rcases mem_edges_of_add_edges_from e he with he | ⟨pr, hpr, rfl⟩
  rotate_left
  · obtain ⟨z, hz, rfl⟩ := List.mem_map.1 hpr
    exact Or.inl ⟨z, hz, rfl⟩
  unfold addEndNodes addStartNodes addLocNodes at he
  rw [edges_foldl_add_node, edges_foldl_add_node, edges_foldl_add_node] at he
  simp [add_node, Graph.edges] at he

theorem attrOf_baseGraph_s (legs : List (StopRec × StopRec))
    (locations : List String) :
    attrOf (baseGraph legs locations) .s = { tag := some "source" } := by
  rw [attrOf_baseGraph]
  rw [lastMatch?_eq_none (q := fun p => endKey p == NKey.s) (fun p _ => by simp [endKey])]
  simp only
  rw [lastMatch?_eq_none (q := fun p => startKey p == NKey.s) (fun p _ => by simp [startKey])]
  simp only
  rw [lastMatch?_eq_none (fun z hz => ?_)]
  · simp only
    rw [attrOf_add_node_ne _ _ _ _ (by simp)]
    exact attrOf_add_node_self _ _ _
  · rcases List.mem_flatMap.1 hz with ⟨w, _, hw⟩
    rcases List.mem_cons.1 hw with rfl | hw'
    · simp
    · rcases List.mem_cons.1 hw' with rfl | h
      · simp
      · simp at h

theorem attrOf_baseGraph_t (legs : List (StopRec × StopRec))
    (locations : List String) :
    attrOf (baseGraph legs locations) .t = { tag := some "target" } := by
  rw [attrOf_baseGraph]
  rw [lastMatch?_eq_none (q := fun p => endKey p == NKey.t) (fun p _ => by simp [endKey])]
  simp only
  rw [lastMatch?_eq_none (q := fun p => startKey p == NKey.t) (fun p _ => by simp [startKey])]
  simp only
  rw [lastMatch?_eq_none (fun z hz => ?_)]
  · simp only
    exact attrOf_add_node_self _ _ _
  · rcases List.mem_flatMap.1 hz with ⟨w, _, hw⟩
    rcases List.mem_cons.1 hw with rfl | hw'
    · simp
    · rcases List.mem_cons.1 hw' with rfl | h
      · simp
      · simp at h

theorem attrOf_baseGraph_loc_cases (legs : List (StopRec × StopRec))
    (locations : List String) (z : String) (typ : String) :
    attrOf (baseGraph legs locations) (.loc z typ) = { tag := some "location" } ∨
      attrOf (baseGraph legs locations) (.loc z typ) = {} := by
  rw [attrOf_baseGraph]
  rw [lastMatch?_eq_none (q := fun p => endKey p == NKey.loc z typ)
    (fun p _ => by simp [endKey])]
  simp only
  rw [lastMatch?_eq_none (q := fun p => startKey p == NKey.loc z typ)
    (fun p _ => by simp [startKey])]
  simp only
  cases lastMatch? (fun w => w == NKey.loc z typ)
      (locations.flatMap fun w => [NKey.loc w "out", NKey.loc w "in"]) with
  | some w => exact Or.inl rfl
  | none =>
    simp only
    rw [attrOf_add_node_ne _ _ _ _ (by simp), attrOf_add_node_ne _ _ _ _ (by simp)]
    exact Or.inr rfl

theorem attrOf_finalGraphOf (rows : List StopRec) (tagged : List (NKey × String))
    (k : NKey) : attrOf (finalGraphOf rows tagged) k = attrOf (baseOf rows) k := by
  unfold finalGraphOf utilGraphOf
  rw [attrOf_add_edges_from, attrOf_add_edges_from]

theorem attrOf_utilGraphOf (rows : List StopRec) (tagged : List (NKey × String))
    (k : NKey) : attrOf (utilGraphOf rows tagged) k = attrOf (baseOf rows) k := by
  unfold utilGraphOf
  rw [attrOf_add_edges_from]

theorem tagged_attr {rows : List StopRec} {tagged : List (NKey × String)}
    (ht : taggedNodes? (baseOf rows) = some tagged) {k : NKey} {tg : String}
    (h : (k, tg) ∈ tagged) : (attrOf (baseOf rows) k).tag = some tg := by
  obtain ⟨a, ha, hta⟩ := taggedNodes?_mem_rev ht h
  have hnd : ((baseOf rows).nodes.map Prod.fst).Nodup := keys_nodup_baseGraph _ _
  rw [attr_eq_of_mem_of_nodup hnd ha]
  exact hta

theorem attr_tagged {rows : List StopRec} {tagged : List (NKey × String)}
    (ht : taggedNodes? (baseOf rows) = some tagged) {k : NKey} {tg : String}
    (hk : k ∈ (baseOf rows).nodes.map Prod.fst)
    (h : (attrOf (baseOf rows) k).tag = some tg) : (k, tg) ∈ tagged := by
  obtain ⟨⟨k', a⟩, ha, hk'⟩ := List.mem_map.1 hk
  obtain rfl : k' = k := hk'
  obtain ⟨tg', htg', hmem⟩ := taggedNodes?_mem ht ha
  have hnd : ((baseOf rows).nodes.map Prod.fst).Nodup := keys_nodup_baseGraph _ _
  rw [attr_eq_of_mem_of_nodup hnd ha] at h
  rw [htg'] at h
  obtain rfl : tg' = tg := by simpa using h
  exact hmem

theorem mem_trailerStartKeys {tagged : List (NKey × String)} {k : NKey} :
    k ∈ trailerStartKeys tagged ↔ (k, "trailer_start") ∈ tagged := by
  unfold trailerStartKeys
  constructor
  · intro h
    obtain ⟨⟨k', tg⟩, hmem, hk⟩ := List.mem_map.1 h
    obtain rfl : k' = k := hk
    have := (List.mem_filter.1 hmem).2
    obtain rfl : tg = "trailer_start" := by simpa using this
    exact (List.mem_filter.1 hmem).1
  · intro h
    exact List.mem_map.2 ⟨(k, "trailer_start"), List.mem_filter.2 ⟨h, by simp⟩, rfl⟩

theorem mem_trailerEndKeys {tagged : List (NKey × String)} {k : NKey} :
    k ∈ trailerEndKeys tagged ↔ (k, "trailer_end") ∈ tagged := by
  unfold trailerEndKeys
  constructor
  · intro h
    obtain ⟨⟨k', tg⟩, hmem, hk⟩ := List.mem_map.1 h
    obtain rfl : k' = k := hk
    have := (List.mem_filter.1 hmem).2
    obtain rfl : tg = "trailer_end" := by simpa using this
    exact (List.mem_filter.1 hmem).1
  · intro h
    exact List.mem_map.2 ⟨(k, "trailer_end"), List.mem_filter.2 ⟨h, by simp⟩, rfl⟩

theorem mem_utilPairsOf {tagged : List (NKey × String)} {pr : NKey × NKey}
    (h : pr ∈ utilPairsOf tagged) :
    pr.1 ∈ trailerStartKeys tagged ∧ pr.2 ∈ trailerEndKeys tagged ∧
      pre2eq pr.1 pr.2 = true := by
  unfold utilPairsOf at h
  obtain ⟨i, hi, hfm⟩ := List.mem_flatMap.1 h
  obtain ⟨j, hj, hij⟩ := List.mem_filterMap.1 hfm
  by_cases hc : pre2eq i j = true
  · rw [if_pos hc] at hij
    obtain rfl : (i, j) = pr := by simpa using hij
    exact ⟨hi, hj, hc⟩
  · rw [if_neg hc] at hij
    simp at hij

theorem mem_utilPairsOf_intro {tagged : List (NKey × String)} {i j : NKey}
    (hi : i ∈ trailerStartKeys tagged) (hj : j ∈ trailerEndKeys tagged)
    (hc : pre2eq i j = true) : (i, j) ∈ utilPairsOf tagged := by
  unfold utilPairsOf
  exact List.mem_flatMap.2 ⟨i, hi, List.mem_filterMap.2 ⟨j, hj, by rw [if_pos hc]⟩⟩

theorem mem_reusePairsOf {g1 : Graph} {tagged : List (NKey × String)}
    {pr : NKey × NKey} (h : pr ∈ reusePairsOf g1 tagged) :
    pr.1 ∈ trailerEndKeys tagged ∧ pr.2 ∈ trailerStartKeys tagged ∧
      reuseCond g1 pr.1 pr.2 = true := by
  unfold reusePairsOf at h
  obtain ⟨i, hi, hfm⟩ := List.mem_flatMap.1 h
  obtain ⟨j, hj, hij⟩ := List.mem_filterMap.1 hfm
  by_cases hc : reuseCond g1 i j = true
  · rw [if_pos hc] at hij
    obtain rfl : (i, j) = pr := by simpa using hij
    exact ⟨hi, hj, hc⟩
  · rw [if_neg hc] at hij
    simp at hij

theorem mem_reusePairsOf_intro {g1 : Graph} {tagged : List (NKey × String)}
    {i j : NKey} (hi : i ∈ trailerEndKeys tagged) (hj : j ∈ trailerStartKeys tagged)
    (hc : reuseCond g1 i j = true) : (i, j) ∈ reusePairsOf g1 tagged := by
  unfold reusePairsOf
  exact List.mem_flatMap.2 ⟨i, hi, List.mem_filterMap.2 ⟨j, hj, by rw [if_pos hc]⟩⟩

theorem lastMatch?_congr {α : Type} {q1 q2 : α → Bool} {l : List α}
    (h : ∀ x ∈ l, q1 x = q2 x) : lastMatch? q1 l = lastMatch? q2 l := by
  induction l with
  | nil => rfl
  | cons x rest ih =>
    unfold lastMatch?
    rw [ih fun y hy => h y (List.mem_cons_of_mem _ hy),
      h x (List.mem_cons_self _ _)]

theorem startKey_beq_iff_endKey_beq (x p : StopRec × StopRec) :
    (startKey x == startKey p) = (endKey x == endKey p) := by
  rw [Bool.eq_iff_iff]
  simp [startKey, endKey]

/-- The start and end node of a trailer key carry attributes written by the
same (last) leg with that (Route, Sequence) key. -/
theorem attrOf_baseGraph_mem {legs : List (StopRec × StopRec)}
    {locations : List String} {p : StopRec × StopRec} (hp : p ∈ legs) :
    ∃ q ∈ legs, legKey q = legKey p ∧
      attrOf (baseGraph legs locations) (startKey p) = startAttr q ∧
      attrOf (baseGraph legs locations) (endKey p) = endAttr q := by
  obtain ⟨q, hq⟩ :=
    lastMatch?_isSome_of_mem (q := fun x => startKey x == startKey p) hp
      (beq_self_eq_true _)
  have hmemq := lastMatch?_mem hq
  have hqkey : startKey q = startKey p := by simpa using hmemq.2
  have hlegkey : legKey q = legKey p := by
    simp only [startKey, NKey.trl.injEq] at hqkey
    simp [legKey, hqkey.1, hqkey.2.1]
  have hq' : lastMatch? (fun x => endKey x == endKey p) legs = some q := by
    rw [← lastMatch?_congr fun x _ => startKey_beq_iff_endKey_beq x p]
    exact hq
  refine ⟨q, hmemq.1, hlegkey, ?_, ?_⟩
  · rw [show startKey p = NKey.trl p.1.route p.1.seq "start" from rfl,
      attrOf_baseGraph_start]
    rw [show (fun x => startKey x == NKey.trl p.1.route p.1.seq "start") =
      (fun x => startKey x == startKey p) from rfl, hq]
  · rw [show endKey p = NKey.trl p.1.route p.1.seq "end" from rfl,
      attrOf_baseGraph_end]
    rw [show (fun x => endKey x == NKey.trl p.1.route p.1.seq "end") =
      (fun x => endKey x == endKey p) from rfl, hq']

theorem attrOf_baseGraph_self {legs : List (StopRec × StopRec)}
    {locations : List String} {p : StopRec × StopRec}
    (hnd : (legs.map legKey).Nodup) (hp : p ∈ legs) :
    attrOf (baseGraph legs locations) (startKey p) = startAttr p ∧
      attrOf (baseGraph legs locations) (endKey p) = endAttr p := by
  obtain ⟨q, hqmem, hqkey, hs, he⟩ := @attrOf_baseGraph_mem _ locations _ hp
  obtain rfl : q = p := List.inj_on_of_nodup_map hnd hqmem hp hqkey
  exact ⟨hs, he⟩

theorem trailerStartKeys_shape {rows : List StopRec} {tagged : List (NKey × String)}
    (ht : taggedNodes? (baseOf rows) = some tagged) {k : NKey}
    (hk : k ∈ trailerStartKeys tagged) :
    ∃ p ∈ read_driver_schedule rows, k = startKey p := by
  have htag := tagged_attr ht (mem_trailerStartKeys.1 hk)
  obtain ⟨a, ha, -⟩ := taggedNodes?_mem_rev ht (mem_trailerStartKeys.1 hk)
  have hkmem : k ∈ (baseOf rows).nodes.map Prod.fst := List.mem_map.2 ⟨(k, a), ha, rfl⟩
  unfold baseOf at hkmem htag
  rcases key_provenance_baseGraph k hkmem with rfl | rfl | ⟨z, hz, (rfl | rfl)⟩ |
    ⟨p, hp, (rfl | rfl)⟩ | ⟨p, hp, (rfl | rfl)⟩
  · rw [attrOf_baseGraph_s] at htag
    simp at htag
  · rw [attrOf_baseGraph_t] at htag
    simp at htag
  · rcases attrOf_baseGraph_loc_cases (read_driver_schedule rows) (locsOf rows) z "out"
      with hc | hc <;> rw [hc] at htag <;> simp at htag
  · rcases attrOf_baseGraph_loc_cases (read_driver_schedule rows) (locsOf rows) z "in"
      with hc | hc <;> rw [hc] at htag <;> simp at htag
  · exact ⟨p, hp, rfl⟩
  · obtain ⟨q, hqmem, hqkey, hs, he⟩ :=
      @attrOf_baseGraph_mem _ (locsOf rows) _ hp
    rw [he] at htag
    simp [endAttr] at htag
  · rcases attrOf_baseGraph_loc_cases (read_driver_schedule rows) (locsOf rows)
      p.1.zip "out" with hc | hc <;> rw [hc] at htag <;> simp at htag
  · rcases attrOf_baseGraph_loc_cases (read_driver_schedule rows) (locsOf rows)
      p.2.zip "in" with hc | hc <;> rw [hc] at htag <;> simp at htag

theorem trailerEndKeys_shape {rows : List StopRec} {tagged : List (NKey × String)}
    (ht : taggedNodes? (baseOf rows) = some tagged) {k : NKey}
    (hk : k ∈ trailerEndKeys tagged) :
    ∃ p ∈ read_driver_schedule rows, k = endKey p := by
  have htag := tagged_attr ht (mem_trailerEndKeys.1 hk)
  obtain ⟨a, ha, -⟩ := taggedNodes?_mem_rev ht (mem_trailerEndKeys.1 hk)
  have hkmem : k ∈ (baseOf rows).nodes.map Prod.fst := List.mem_map.2 ⟨(k, a), ha, rfl⟩
  unfold baseOf at hkmem htag
  rcases key_provenance_baseGraph k hkmem with rfl | rfl | ⟨z, hz, (rfl | rfl)⟩ |
    ⟨p, hp, (rfl | rfl)⟩ | ⟨p, hp, (rfl | rfl)⟩
  · rw [attrOf_baseGraph_s] at htag
    simp at htag
  · rw [attrOf_baseGraph_t] at htag
    simp at htag
  · rcases attrOf_baseGraph_loc_cases (read_driver_schedule rows) (locsOf rows) z "out"
      with hc | hc <;> rw [hc] at htag <;> simp at htag
  · rcases attrOf_baseGraph_loc_cases (read_driver_schedule rows) (locsOf rows) z "in"
      with hc | hc <;> rw [hc] at htag <;> simp at htag
  · obtain ⟨q, hqmem, hqkey, hs, he⟩ :=
      @attrOf_baseGraph_mem _ (locsOf rows) _ hp
    rw [hs] at htag
    simp [startAttr] at htag
  · exact ⟨p, hp, rfl⟩
  · rcases attrOf_baseGraph_loc_cases (read_driver_schedule rows) (locsOf rows)
      p.1.zip "out" with hc | hc <;> rw [hc] at htag <;> simp at htag
  · rcases attrOf_baseGraph_loc_cases (read_driver_schedule rows) (locsOf rows)
      p.2.zip "in" with hc | hc <;> rw [hc] at htag <;> simp at htag

theorem startKey_mem_trailerStartKeys {rows : List StopRec}
    {tagged : List (NKey × String)} (ht : taggedNodes? (baseOf rows) = some tagged)
    {p : StopRec × StopRec} (hp : p ∈ read_driver_schedule rows) :
    startKey p ∈ trailerStartKeys tagged := by
  refine mem_trailerStartKeys.2 (attr_tagged ht ?_ ?_)
  · unfold baseOf
    exact key_mem_baseGraph_start hp
  · unfold baseOf
    obtain ⟨q, hqmem, hqkey, hs, he⟩ :=
      @attrOf_baseGraph_mem _ (locsOf rows) _ hp
    rw [hs]
    rfl

theorem endKey_mem_trailerEndKeys {rows : List StopRec}
    {tagged : List (NKey × String)} (ht : taggedNodes? (baseOf rows) = some tagged)
    {p : StopRec × StopRec} (hp : p ∈ read_driver_schedule rows) :
    endKey p ∈ trailerEndKeys tagged := by
  refine mem_trailerEndKeys.2 (attr_tagged ht ?_ ?_)
  · unfold baseOf
    exact key_mem_baseGraph_end hp
  · unfold baseOf
    obtain ⟨q, hqmem, hqkey, hs, he⟩ :=
      @attrOf_baseGraph_mem _ (locsOf rows) _ hp
    rw [he]
    rfl

theorem startKey_inj_of_nodup {legs : List (StopRec × StopRec)}
    (hnd : (legs.map legKey).Nodup) {pa pb : StopRec × StopRec}
    (ha : pa ∈ legs) (hb : pb ∈ legs) (h : startKey pa = startKey pb) : pa = pb := by
  refine List.inj_on_of_nodup_map hnd ha hb ?_
  simp only [startKey, NKey.trl.injEq] at h
  simp [legKey, h.1, h.2.1]

theorem endKey_inj_of_nodup {legs : List (StopRec × StopRec)}
    (hnd : (legs.map legKey).Nodup) {pa pb : StopRec × StopRec}
    (ha : pa ∈ legs) (hb : pb ∈ legs) (h : endKey pa = endKey pb) : pa = pb := by
  refine List.inj_on_of_nodup_map hnd ha hb ?_
  simp only [endKey, NKey.trl.injEq] at h
  simp [legKey, h.1, h.2.1]

/-- Every edge of a successfully built graph has one of the six tagged
shapes of the source (lines 70, 73, 76, 79, 84-86, 90-93). -/
theorem mem_edges_final {rows : List StopRec} {tagged : List (NKey × String)}
    (ht : taggedNodes? (baseOf rows) = some tagged) :
    ∀ e ∈ (finalGraphOf rows tagged).edges,
      (∃ z ∈ locsOf rows, e = (.s, .loc z "out", "src_pool")) ∨
      (∃ z ∈ locsOf rows, e = (.loc z "in", .t, "sink_pool")) ∨
      (∃ p ∈ read_driver_schedule rows,
        e = (.loc p.1.zip "out", startKey p, "trl_supp")) ∨
      (∃ p ∈ read_driver_schedule rows,
        e = (endKey p, .loc p.2.zip "in", "trl_rtrn")) ∨
      (∃ pa pb, pa ∈ read_driver_schedule rows ∧ pb ∈ read_driver_schedule rows ∧
        legKey pa = legKey pb ∧ e = (startKey pa, endKey pb, "trailer_utilization")) ∨
      (∃ pa pb, pa ∈ read_driver_schedule rows ∧ pb ∈ read_driver_schedule rows ∧
        reuseCond (utilGraphOf rows tagged) (endKey pa) (startKey pb) = true ∧
        e = (endKey pa, startKey pb, "same_trailer")) := by
  intro e he
  unfold finalGraphOf at he
  rcases mem_edges_of_add_edges_from e he with he | ⟨pr, hpr, rfl⟩
  rotate_left
  · obtain ⟨h1, h2, hc⟩ := mem_reusePairsOf hpr
    obtain ⟨pa, hpa, hk1⟩ := trailerEndKeys_shape ht h1
    obtain ⟨pb, hpb, hk2⟩ := trailerStartKeys_shape ht h2
    refine Or.inr (Or.inr (Or.inr (Or.inr (Or.inr ⟨pa, pb, hpa, hpb, ?_, ?_⟩))))
    · rw [← hk1, ← hk2]
      exact hc
    · rw [hk1, hk2]
  unfold utilGraphOf at he
  rcases mem_edges_of_add_edges_from e he with he | ⟨pr, hpr, rfl⟩
  rotate_left
  · obtain ⟨h1, h2, hc⟩ := mem_utilPairsOf hpr
    obtain ⟨pa, hpa, hk1⟩ := trailerStartKeys_shape ht h1
    obtain ⟨pb, hpb, hk2⟩ := trailerEndKeys_shape ht h2
    refine Or.inr (Or.inr (Or.inr (Or.inr (Or.inl ⟨pa, pb, hpa, hpb, ?_, ?_⟩))))
    · rw [hk1, hk2] at hc
      simp only [startKey, endKey, pre2eq] at hc
      rw [Bool.and_eq_true] at hc
      obtain ⟨hr, hs⟩ := hc
      simp only [beq_iff_eq] at hr hs
      simp [legKey, hr, hs]
    · rw [hk1, hk2]
  unfold baseOf at he
  rcases mem_edges_baseGraph e he with h | h | h | h
  · exact Or.inl h
  · exact Or.inr (Or.inl h)
  · exact Or.inr (Or.inr (Or.inl h))
  · exact Or.inr (Or.inr (Or.inr (Or.inl h)))

theorem optLtInt_eq_true {a b : Option Int} (h : optLtInt a b = true) :
    ∃ x y, a = some x ∧ b = some y ∧ x < y := by
  cases a with
  | none => simp [optLtInt] at h
  | some x =>
    cases b with
    | none => simp [optLtInt] at h
    | some y => exact ⟨x, y, rfl, rfl, by simpa [optLtInt] using h⟩

/-- The reuse predicate of lines 92-93, translated to the leg fields when
the leg keys are duplicate-free: destination equals origin and the release
time strictly precedes the ready time. -/
theorem reuseCond_iff {rows : List StopRec} {tagged : List (NKey × String)}
    (hnd : ((read_driver_schedule rows).map legKey).Nodup)
    {pa pb : StopRec × StopRec} (hpa : pa ∈ read_driver_schedule rows)
    (hpb : pb ∈ read_driver_schedule rows) :
    (reuseCond (utilGraphOf rows tagged) (endKey pa) (startKey pb) = true) ↔
      (pa.2.zip = pb.1.zip ∧ pa.2.arv + drop_time < pb.1.arv - preload_time) := by
  unfold reuseCond
  rw [attrOf_utilGraphOf, attrOf_utilGraphOf]
  unfold baseOf
  obtain ⟨-, hea⟩ := @attrOf_baseGraph_self _ (locsOf rows) _ hnd hpa
  obtain ⟨hsb, -⟩ := @attrOf_baseGraph_self _ (locsOf rows) _ hnd hpb
  rw [hea, hsb]
  simp [endAttr, startAttr, optEqStr, optLtInt]

theorem key_mem_final_to_base {rows : List StopRec} {tagged : List (NKey × String)}
    (ht : taggedNodes? (baseOf rows) = some tagged) {k : NKey}
    (hk : k ∈ (finalGraphOf rows tagged).nodes.map Prod.fst) :
    k ∈ (baseOf rows).nodes.map Prod.fst := by
  obtain ⟨q, hq, rfl⟩ := List.mem_map.1 hk
  unfold finalGraphOf at hq
  rcases mem_nodes_of_add_edges_from hq with hq | ⟨pr, hpr, hq⟩
  rotate_left
  · obtain ⟨h1, h2, -⟩ := mem_reusePairsOf hpr
    obtain ⟨pa, hpa, hk1⟩ := trailerEndKeys_shape ht h1
    obtain ⟨pb, hpb, hk2⟩ := trailerStartKeys_shape ht h2
    rcases hq with rfl | rfl
    · rw [show (pr.1, ({} : NAttr)).1 = pr.1 from rfl, hk1]
      unfold baseOf
      exact key_mem_baseGraph_end hpa
    · rw [show (pr.2, ({} : NAttr)).1 = pr.2 from rfl, hk2]
      unfold baseOf
      exact key_mem_baseGraph_start hpb
  unfold utilGraphOf at hq
  rcases mem_nodes_of_add_edges_from hq with hq | ⟨pr, hpr, hq⟩
  rotate_left
  · obtain ⟨h1, h2, -⟩ := mem_utilPairsOf hpr
    obtain ⟨pa, hpa, hk1⟩ := trailerStartKeys_shape ht h1
    obtain ⟨pb, hpb, hk2⟩ := trailerEndKeys_shape ht h2
    rcases hq with rfl | rfl
    · rw [show (pr.1, ({} : NAttr)).1 = pr.1 from rfl, hk1]
      unfold baseOf
      exact key_mem_baseGraph_start hpa
    · rw [show (pr.2, ({} : NAttr)).1 = pr.2 from rfl, hk2]
      unfold baseOf
      exact key_mem_baseGraph_end hpb
  exact List.mem_map.2 ⟨q, hq, rfl⟩

theorem ekeys_nodup_final (rows : List StopRec) (tagged : List (NKey × String)) :
    ((finalGraphOf rows tagged).edges.map fun e => (e.1, e.2.1)).Nodup := by
  unfold finalGraphOf utilGraphOf baseOf baseGraph addRtrnEdges addSuppEdges
  refine ekeys_nodup_add_edges_from (ekeys_nodup_add_edges_from
    (ekeys_nodup_add_edges_from (ekeys_nodup_add_edges_from
      (ekeys_nodup_add_edges_from (ekeys_nodup_add_edges_from ?_)))))
  unfold addEndNodes addStartNodes addLocNodes
  rw [edges_foldl_add_node, edges_foldl_add_node, edges_foldl_add_node]
  simp [add_node, Graph.edges]

/-- C2: for every pair of legs of a duplicate-free schedule, the built graph
contains a `same_trailer` (Reuse) edge from TrailerEnd(legA) to
TrailerStart(legB) iff legA's destination equals legB's origin and legA's
release time (next arrival + drop) is strictly less than legB's ready time
(arrival − preload); in particular equality of the two times creates no
edge. -/
theorem c2_reuse_edge_iff :
    ∀ (rows : List StopRec) (g : Graph), build_network_graph rows = some g →
      ((read_driver_schedule rows).map legKey).Nodup →
      ∀ pa ∈ read_driver_schedule rows, ∀ pb ∈ read_driver_schedule rows,
        ((endKey pa, startKey pb, "same_trailer") ∈ g.edges ↔
          (pa.2.zip = pb.1.zip ∧ pa.2.arv + drop_time < pb.1.arv - preload_time)) := by
  intro rows g hbuild hnd pa hpa pb hpb
  obtain ⟨tagged, ht, rfl⟩ := build_elim hbuild
  constructor
  · intro he
    rcases mem_edges_final ht _ he with ⟨z, hz, heq⟩ | ⟨z, hz, heq⟩ |
      ⟨p, hp, heq⟩ | ⟨p, hp, heq⟩ | ⟨qa, qb, hqa, hqb, hkk, heq⟩ |
      ⟨qa, qb, hqa, hqb, hcond, heq⟩
    · simp [endKey] at heq
    · simp [startKey] at heq
    · simp [endKey, startKey] at heq
    · simp [startKey] at heq
    · simp only [Prod.mk.injEq] at heq
      simp [startKey, endKey] at heq
    · simp only [Prod.mk.injEq] at heq
      obtain rfl : qa = pa :=
        endKey_inj_of_nodup hnd hqa hpa heq.1.symm
      obtain rfl : qb = pb :=
        startKey_inj_of_nodup hnd hqb hpb heq.2.1.symm
      exact (reuseCond_iff hnd hpa hpb).1 hcond
  · rintro ⟨hz, htm⟩
    unfold finalGraphOf
    exact mem_add_edges_from_of_pair
      (mem_reusePairsOf_intro (endKey_mem_trailerEndKeys ht hpa)
        (startKey_mem_trailerStartKeys ht hpb)
        ((reuseCond_iff hnd hpa hpb).2 ⟨hz, htm⟩))

/-- C2 witness: for the single-leg schedule `rows9` the self pair has a
Reuse edge and satisfies the predicate (release 8 < ready 94, same zip). -/
theorem c2_witness :
    (endKey ((⟨1, 1, "A", 100⟩, ⟨1, 2, "A", 0⟩) : StopRec × StopRec),
      startKey ((⟨1, 1, "A", 100⟩, ⟨1, 2, "A", 0⟩) : StopRec × StopRec),
      "same_trailer") ∈ G9.edges ↔
      ((0 : Int) + drop_time < 100 - preload_time ∧ True) := by
  have h := c2_reuse_edge_iff rows9 G9 build_rows9 (by decide)
    (⟨1, 1, "A", 100⟩, ⟨1, 2, "A", 0⟩) (by decide)
    (⟨1, 1, "A", 100⟩, ⟨1, 2, "A", 0⟩) (by decide)
  rw [h]
  simp [preload_time, drop_time]

/-- C3: the built graph of a duplicate-free schedule has exactly one
`trailer_utilization` edge per leg — from the leg's TrailerStart node to its
TrailerEnd node, with no duplicate edges — and any feasible solution of the
constraint model puts flow exactly 1 on every such edge (its variable is
bounded `lb = ub = 1`). -/
theorem c3_utilization_edges :
    ∀ (rows : List StopRec) (g : Graph), build_network_graph rows = some g →
      ((read_driver_schedule rows).map legKey).Nodup →
      (∀ p ∈ read_driver_schedule rows,
        (startKey p, endKey p, "trailer_utilization") ∈ g.edges) ∧
      (∀ e ∈ g.edges, e.2.2 = "trailer_utilization" →
        ∃ p ∈ read_driver_schedule rows,
          e = (startKey p, endKey p, "trailer_utilization")) ∧
      (g.edges.map fun e => (e.1, e.2.1)).Nodup ∧
      (∀ (bal_pool : Bool) (f : EKey → ℚ) (v : ℚ), IsFeasible g bal_pool f v →
        ∀ e ∈ g.edges, e.2.2 = "trailer_utilization" → f (e.1, e.2.1) = 1) := by
  intro rows g hbuild hnd
  obtain ⟨tagged, ht, rfl⟩ := build_elim hbuild
  refine ⟨?_, ?_, ekeys_nodup_final rows tagged, ?_⟩
  · intro p hp
    have hpair : (startKey p, endKey p) ∈ utilPairsOf tagged :=
      mem_utilPairsOf_intro (startKey_mem_trailerStartKeys ht hp)
        (endKey_mem_trailerEndKeys ht hp) (by simp [startKey, endKey, pre2eq])
    have hutil : (startKey p, endKey p, "trailer_utilization") ∈
        (utilGraphOf rows tagged).edges := by
      unfold utilGraphOf
      exact mem_add_edges_from_of_pair hpair
    unfold finalGraphOf
    refine mem_add_edges_from_of_ne hutil ?_
    intro pr hpr
    obtain ⟨h1, -, -⟩ := mem_reusePairsOf hpr
    obtain ⟨pe, -, hk1⟩ := trailerEndKeys_shape ht h1
    rintro ⟨hcontra, -⟩
    rw [hk1] at hcontra
    simp [startKey, endKey] at hcontra
  · intro e he htag
    rcases mem_edges_final ht _ he with ⟨z, hz, rfl⟩ | ⟨z, hz, rfl⟩ |
      ⟨p, hp, rfl⟩ | ⟨p, hp, rfl⟩ | ⟨qa, qb, hqa, hqb, hkk, rfl⟩ |
      ⟨qa, qb, hqa, hqb, hcond, rfl⟩
    · simp at htag
    · simp at htag
    · simp at htag
    · simp at htag
    · refine ⟨qa, hqa, ?_⟩
      have : endKey qb = endKey qa := by
        simp only [endKey]
        simp only [legKey, Prod.mk.injEq] at hkk
        rw [hkk.1, hkk.2]
      rw [this]
    · simp at htag
  · intro bal_pool f v hfeas e he htag
    obtain ⟨i, j, tg⟩ := e
    simp only at htag
    subst htag
    exact boundSat_util f i j (hfeas.1 _ he)

/-- C3 witness: the first leg of `rows2` has its utilization edge in `G2`,
and the feasible point `f2` carries flow 1 on it. -/
theorem c3_witness :
    (startKey ((⟨1, 1, "A", 0⟩, ⟨1, 2, "A", 100⟩) : StopRec × StopRec),
      endKey ((⟨1, 1, "A", 0⟩, ⟨1, 2, "A", 100⟩) : StopRec × StopRec),
      "trailer_utilization") ∈ G2.edges ∧
    f2 (NKey.trl 1 1 "start", NKey.trl 1 1 "end") = 1 := by
  have h := c3_utilization_edges rows2 G2 build_rows2 (by decide)
  refine ⟨h.1 (⟨1, 1, "A", 0⟩, ⟨1, 2, "A", 100⟩) (by decide), ?_⟩
  exact h.2.2.2 false f2 2 G2_feasible
    (NKey.trl 1 1 "start", NKey.trl 1 1 "end", "trailer_utilization")
    (by decide) rfl

/-- C4: in every feasible solution of the model of a built graph, flow is
conserved at every node other than Source and Sink (sum of outgoing flows
equals sum of incoming flows), and every edge's flow is non-negative. -/
theorem c4_conservation_and_nonneg :
    ∀ (rows : List StopRec) (g : Graph) (bal_pool : Bool) (f : EKey → ℚ) (v : ℚ),
      build_network_graph rows = some g → IsFeasible g bal_pool f v →
      (∀ q ∈ g.nodes, q.1 ≠ .s → q.1 ≠ .t →
        sumF f (outEdges g q.1) = sumF f (inEdges g q.1)) ∧
      (∀ e ∈ g.edges, 0 ≤ f (e.1, e.2.1)) := by
  rintro rows g bal_pool f v hbuild ⟨hb, hv, hc⟩
  constructor
  · intro q hq hs hts
    have hcons : Con.consCon (outEdges g q.1) (inEdges g q.1) ∈ modelCons g bal_pool := by
      unfold modelCons
      refine List.mem_flatMap.2 ⟨q, hq, ?_⟩
      unfold nodeCons
      rw [if_neg hs, if_neg hts]
      exact List.mem_append.2 (Or.inl (List.mem_cons_self _ _))
    have h2 : sumF f (outEdges g q.1) - sumF f (inEdges g q.1) = 0 := hc _ hcons
    linarith
  · intro e he
    exact boundSat_nonneg f e (hb e he)

/-- C4 witness: the theorem at `rows2` with the feasible point `f2`,
projected to the pool node of location "A" and to the supply edge. -/
theorem c4_witness :
    sumF f2 (outEdges G2 (NKey.loc "A" "out")) =
      sumF f2 (inEdges G2 (NKey.loc "A" "out")) ∧
    (0 : ℚ) ≤ f2 (NKey.s, NKey.loc "A" "out") := by
  have h := c4_conservation_and_nonneg rows2 G2 false f2 2 build_rows2 G2_feasible
  exact ⟨h.1 (NKey.loc "A" "out", { tag := some "location" }) (by decide)
      (by decide) (by decide),
    h.2 (NKey.s, NKey.loc "A" "out", "src_pool") (by decide)⟩

/-- C6: pool balance is an explicit opt-in: with `bal_pool = true` the model
contains, for every location node of the built graph, the equality between
the `s → (loc, out)` flow and the `(loc, in) → t` flow; with
`bal_pool = false` (the default) the model contains no pool-balance
constraint at all. -/
theorem c6_pool_balance_opt_in :
    ∀ (rows : List StopRec) (g : Graph), build_network_graph rows = some g →
      (∀ z, hasNode g (.loc z "out") = true →
        Con.poolCon (.s, .loc z "out") (.loc z "in", .t) ∈ modelCons g true) ∧
      (∀ c ∈ modelCons g false, ∀ a b, c ≠ Con.poolCon a b) := by
  intro rows g hbuild
  obtain ⟨tagged, ht, rfl⟩ := build_elim hbuild
  constructor
  · intro z hz
    have hkbase := key_mem_final_to_base ht (hasNode_iff.1 hz)
    have hzloc : z ∈ locsOf rows := by
      unfold baseOf at hkbase
      rcases key_provenance_baseGraph _ hkbase with h | h | ⟨w, hw, (h | h)⟩ |
        ⟨p, hp, (h | h)⟩ | ⟨p, hp, (h | h)⟩
      · simp at h
      · simp at h
      · obtain rfl : z = w := by simpa [NKey.loc.injEq] using h
        exact hw
      · simp at h
      · simp [startKey] at h
      · simp [endKey] at h
      · obtain rfl : z = p.1.zip := by simpa [NKey.loc.injEq] using h
        exact mem_uniqueFirst.2 (List.mem_map.2 ⟨p, hp, rfl⟩)
      · simp at h
    have hattr : (attrOf (finalGraphOf rows tagged) (.loc z "out")).tag =
        some "location" := by
      rw [attrOf_finalGraphOf]
      unfold baseOf
      rw [attrOf_baseGraph_loc _ _ hzloc (Or.inl rfl)]
    obtain ⟨a, ha, hak⟩ := List.mem_map.1 (hasNode_iff.1 hz)
    unfold modelCons
    refine List.mem_flatMap.2 ⟨a, ha, ?_⟩
    rw [hak]
    simp [nodeCons, hattr]
  · intro c hc a b
    obtain ⟨q, hq, hcq⟩ := List.mem_flatMap.1 hc
    unfold nodeCons at hcq
    by_cases h1 : q.1 = NKey.s
    · rw [if_pos h1] at hcq
      obtain rfl := List.mem_singleton.1 hcq
      simp
    · rw [if_neg h1] at hcq
      by_cases h2 : q.1 = NKey.t
      · rw [if_pos h2] at hcq
        obtain rfl := List.mem_singleton.1 hcq
        simp
      · rw [if_neg h2] at hcq
        rcases List.mem_append.1 hcq with h | h
        · obtain rfl := List.mem_singleton.1 h
          simp
        · exfalso
          cases hk : q.1 <;> rw [hk] at h <;> simp at h

/-- C6 witness: the pool-balance constraint for location "A" is in the
`bal_pool = true` model of `G2`, and a constraint of the
`bal_pool = false` model is not a pool constraint. -/
theorem c6_witness :
    Con.poolCon (.s, .loc "A" "out") (.loc "A" "in", .t) ∈ modelCons G2 true ∧
      Con.srcCon [(NKey.s, NKey.loc "A" "out")] ≠
        Con.poolCon (NKey.s, NKey.s) (NKey.s, NKey.s) := by
  have h := c6_pool_balance_opt_in rows2 G2 build_rows2
  exact ⟨h.1 "A" (by decide),
    h.2 (Con.srcCon [(NKey.s, NKey.loc "A" "out")]) (by decide) _ _⟩

/-- C10: whenever `solve_min_flow_prob` succeeds, the returned mapping has
exactly the built graph's edges as keys — in the graph's edge order, with no
duplicates — and maps each edge to its solved flow value. -/
theorem c10_solution_keys_are_edges :
    ∀ (rows : List StopRec) (bal_pool : Bool) (m : List (EKey × ℚ)) (g : Graph),
      solve_min_flow_prob rows bal_pool (some m) →
      build_network_graph rows = some g →
      m.map Prod.fst = edgeKeys g ∧ (edgeKeys g).Nodup ∧
        ∃ f v, IsFeasible g bal_pool f v ∧ ∀ q ∈ m, q.2 = f q.1 := by
  rintro rows bal_pool m g ⟨g', hg', out, hout, hres⟩ hbuild
  rw [hbuild] at hg'
  obtain rfl : g = g' := Option.some.inj hg'
  cases out with
  | none => simp at hres
  | some fv =>
    obtain rfl : m = (edgeKeys g).map fun e => (e, fv.1 e) := Option.some.inj hres
    refine ⟨?_, ?_, fv.1, fv.2, hout.1, ?_⟩
    · induction edgeKeys g with
      | nil => rfl
      | cons e l ih =>
        simp only [List.map_cons, List.cons.injEq]
        exact ⟨trivial, ih⟩
    · obtain ⟨tagged, ht, rfl⟩ := build_elim hbuild
      exact ekeys_nodup_final rows tagged
    · intro q hq
      obtain ⟨e, he, rfl⟩ := List.mem_map.1 hq
      rfl

/-- C10 witness: the theorem applied at the successful solve of `rows2`. -/
theorem c10_witness :
    (((edgeKeys G2).map fun e => (e, f2 e)).map Prod.fst = edgeKeys G2) ∧
      (edgeKeys G2).Nodup :=
  ⟨(c10_solution_keys_are_edges rows2 false _ G2 rows2_solve build_rows2).1,
    (c10_solution_keys_are_edges rows2 false _ G2 rows2_solve build_rows2).2.1⟩

theorem phiLt_trans {g : Graph} {x y z : NKey} (h1 : phiLt g x y)
    (h2 : phiLt g y z) : phiLt g x z := by
  unfold phiLt at h1 h2 ⊢
  omega

theorem phiLt_irrefl {g : Graph} {x : NKey} : ¬phiLt g x x := by
  unfold phiLt
  omega

/-- C9 (amended): for inputs whose legs all satisfy ready ≤ release, every
non-terminal edge of the built graph strictly increases the (level, time)
potential, so no directed cycle exists among location and trailer nodes. -/
theorem c9_acyclic_of_ready_le_release :
    ∀ (rows : List StopRec) (g : Graph), build_network_graph rows = some g →
      (∀ p ∈ read_driver_schedule rows,
        p.1.arv - preload_time ≤ p.2.arv + drop_time) →
      ∀ x, ¬Relation.TransGen (nonTermEdge g) x x := by
  intro rows g hbuild hgood x hcyc
  obtain ⟨tagged, ht, rfl⟩ := build_elim hbuild
  have hstep : ∀ a b, nonTermEdge (finalGraphOf rows tagged) a b →
      phiLt (finalGraphOf rows tagged) a b := by
    rintro a b ⟨⟨tg, hab⟩, has, hat, hbs, hbt⟩
    rcases mem_edges_final ht _ hab with ⟨z, hz, heq⟩ | ⟨z, hz, heq⟩ |
      ⟨p, hp, heq⟩ | ⟨p, hp, heq⟩ | ⟨qa, qb, hqa, hqb, hkk, heq⟩ |
      ⟨qa, qb, hqa, hqb, hcond, heq⟩
    · simp only [Prod.mk.injEq] at heq
      exact absurd heq.1 has
    · simp only [Prod.mk.injEq] at heq
      exact absurd heq.2.1 hbt
    · simp only [Prod.mk.injEq] at heq
      obtain ⟨rfl, rfl, -⟩ := heq
      left
      simp [levelOf, startKey]
    · simp only [Prod.mk.injEq] at heq
      obtain ⟨rfl, rfl, -⟩ := heq
      left
      simp [levelOf, endKey]
    · simp only [Prod.mk.injEq] at heq
      obtain ⟨rfl, rfl, -⟩ := heq
      obtain ⟨q, hqmem, hqkey, hs, he⟩ :=
        @attrOf_baseGraph_mem _ (locsOf rows) _ hqa
      have hbe : endKey qb = endKey qa := by
        unfold endKey
        simp only [legKey, Prod.mk.injEq] at hkk
        rw [hkk.1, hkk.2]
      rw [hbe]
      right
      refine ⟨rfl, ?_⟩
      have hta : timeOf (finalGraphOf rows tagged) (startKey qa) =
          2 * (q.1.arv - preload_time) := by
        show timeOf _ (NKey.trl qa.1.route qa.1.seq "start") = _
        simp only [timeOf]
        rw [if_pos trivial, show NKey.trl qa.1.route qa.1.seq "start" = startKey qa from rfl,
          attrOf_finalGraphOf]
        unfold baseOf
        rw [hs]
        simp [startAttr]
      have htb : timeOf (finalGraphOf rows tagged) (endKey qa) =
          2 * (q.2.arv + drop_time) + 1 := by
        show timeOf _ (NKey.trl qa.1.route qa.1.seq "end") = _
        simp only [timeOf]
        rw [if_neg (by simp), show NKey.trl qa.1.route qa.1.seq "end" = endKey qa from rfl,
          attrOf_finalGraphOf]
        unfold baseOf
        rw [he]
        simp [endAttr]
      rw [hta, htb]
      have := hgood q hqmem
      omega
    · simp only [Prod.mk.injEq] at heq
      obtain ⟨rfl, rfl, -⟩ := heq
      unfold reuseCond at hcond
      rw [Bool.and_eq_true] at hcond
      obtain ⟨va, vb, hva, hvb, hlt⟩ := optLtInt_eq_true hcond.2
      right
      refine ⟨rfl, ?_⟩
      have hta : timeOf (finalGraphOf rows tagged) (endKey qa) = 2 * va + 1 := by
        show timeOf _ (NKey.trl qa.1.route qa.1.seq "end") = _
        simp only [timeOf]
        rw [if_neg (by simp), show NKey.trl qa.1.route qa.1.seq "end" = endKey qa from rfl,
          attrOf_finalGraphOf]
        rw [attrOf_utilGraphOf] at hva
        rw [hva]
        rfl
      have htb : timeOf (finalGraphOf rows tagged) (startKey qb) = 2 * vb := by
        show timeOf _ (NKey.trl qb.1.route qb.1.seq "start") = _
        simp only [timeOf]
        rw [if_pos trivial, show NKey.trl qb.1.route qb.1.seq "start" = startKey qb from rfl,
          attrOf_finalGraphOf]
        rw [attrOf_utilGraphOf] at hvb
        rw [hvb]
        rfl
      rw [hta, htb]
      omega
  have hmono : ∀ a b, Relation.TransGen (nonTermEdge (finalGraphOf rows tagged)) a b →
      phiLt (finalGraphOf rows tagged) a b := by
    intro a b h
    induction h with
    | single h1 => exact hstep _ _ h1
    | tail h1 h2 ih => exact phiLt_trans ih (hstep _ _ h2)
  exact phiLt_irrefl (hmono x x hcyc)

/-- C9 witness: the well-timed schedule `rows2` has no trailer-node cycle. -/
theorem c9_witness :
    ¬Relation.TransGen (nonTermEdge G2) (NKey.trl 1 1 "start") (NKey.trl 1 1 "start") :=
  c9_acyclic_of_ready_le_release rows2 G2 build_rows2 (by decide) _

theorem mem_zip_tail_elim {α : Type} {l : List α} {a b : α}
    (h : (a, b) ∈ l.zip l.tail) :
    ∃ (i : ℕ) (h1 : i < l.length) (h2 : i + 1 < l.length),
      l.get ⟨i, h1⟩ = a ∧ l.get ⟨i + 1, h2⟩ = b := by
  induction l with
  | nil => simp at h
  | cons x rest ih =>
    cases rest with
    | nil => simp at h
    | cons y rest' =>
      rcases List.mem_cons.1 h with h' | h'
      · injection h' with ha hb
        refine ⟨0, by simp, by simp, ?_, ?_⟩
        · show x = a
          exact ha.symm
        · show y = b
          exact hb.symm
      · obtain ⟨i, h1, h2, hga, hgb⟩ := ih h'
        exact ⟨i + 1, by simp only [List.length_cons] at h1 ⊢; omega,
          by simp only [List.length_cons] at h2 ⊢; omega, hga, hgb⟩

theorem mem_zip_tail_intro {α : Type} {l : List α} (i : ℕ) (h1 : i < l.length)
    (h2 : i + 1 < l.length) :
    (l.get ⟨i, h1⟩, l.get ⟨i + 1, h2⟩) ∈ l.zip l.tail := by
  induction l generalizing i with
  | nil => simp at h1
  | cons x rest ih =>
    cases rest with
    | nil => simp at h2
    | cons y rest' =>
      cases i with
      | zero => exact List.mem_cons_self _ _
      | succ j =>
        refine List.mem_cons_of_mem _ ?_
        exact ih j (by simp only [List.length_cons] at h1 ⊢; omega)
          (by simp only [List.length_cons] at h2 ⊢; omega)

theorem keptStop_iff {l : List StopRec} {a : StopRec} :
    keptStop l a = true ↔ ∃ y ∈ l, y.route = a.route ∧ a.seq < y.seq := by
  simp [keptStop, List.any_eq_true]

theorem map_fst_zip_tail {α : Type} : ∀ l : List α,
    (l.zip l.tail).map Prod.fst = l.dropLast
  | [] => rfl
  | [x] => rfl
  | x :: y :: rest => by
    have ih := map_fst_zip_tail (y :: rest)
    simp only [List.zip_cons_cons, List.map_cons] at ih ⊢
    rw [show (x :: y :: rest).dropLast = x :: (y :: rest).dropLast from rfl, ← ih]
    rfl

theorem legs_keys_nodup {rows : List StopRec}
    (hnd : (rows.map fun r => (r.route, r.seq)).Nodup) :
    ((read_driver_schedule rows).map legKey).Nodup := by
  have hperm : List.Perm (List.insertionSort rowLe rows) rows := List.perm_insertionSort _ _
  have hkeys : ((List.insertionSort rowLe rows).map fun r => (r.route, r.seq)).Nodup :=
    ((hperm.map fun r => (r.route, r.seq)).nodup_iff).2 hnd
  have hsub1 : ((List.insertionSort rowLe rows).zip
      (List.insertionSort rowLe rows).tail).filter
        (fun p => keptStop (List.insertionSort rowLe rows) p.1) |>.Sublist
      ((List.insertionSort rowLe rows).zip (List.insertionSort rowLe rows).tail) :=
    List.filter_sublist _
  have hsub2 := (hsub1.map Prod.fst).map fun r => (r.route, r.seq)
  rw [map_fst_zip_tail] at hsub2
  have hsub3 : (List.insertionSort rowLe rows).dropLast.Sublist
      (List.insertionSort rowLe rows) := List.dropLast_sublist _
  have hnodup2 := hkeys.sublist (hsub3.map fun r => (r.route, r.seq))
  have hnodup3 := hnodup2.sublist hsub2
  rw [List.map_map] at hnodup3
  exact hnodup3

/-- C5: leg derivation pairs each non-final stop of a route with the
consecutive next stop of the same route (the stop with the least strictly
larger sequence), drops exactly the stops carrying their route's maximal
sequence, and sets ready time = arrival − preload and release time = next
stop's arrival + drop on the trailer nodes. -/
theorem c5_leg_derivation :
    ∀ (rows : List StopRec) (g : Graph),
      (rows.map fun r => (r.route, r.seq)).Nodup →
      build_network_graph rows = some g →
      (∀ p ∈ read_driver_schedule rows,
        p.2.route = p.1.route ∧ p.1.seq < p.2.seq ∧
        (∀ c ∈ rows, c.route = p.1.route → p.1.seq < c.seq → p.2.seq ≤ c.seq) ∧
        (attrOf g (.trl p.1.route p.1.seq "start")).startTm =
          some (p.1.arv - preload_time) ∧
        (attrOf g (.trl p.1.route p.1.seq "end")).endTm =
          some (p.2.arv + drop_time)) ∧
      (∀ a ∈ rows, (∃ b, (a, b) ∈ read_driver_schedule rows) ↔
        ∃ y ∈ rows, y.route = a.route ∧ a.seq < y.seq) := by
  intro rows g hnd hbuild
  have hperm : List.Perm (List.insertionSort rowLe rows) rows := List.perm_insertionSort _ _
  have hsort : List.Sorted rowLe (List.insertionSort rowLe rows) :=
    List.sorted_insertionSort _ _
  have hkeys : ((List.insertionSort rowLe rows).map fun r => (r.route, r.seq)).Nodup :=
    ((hperm.map fun r => (r.route, r.seq)).nodup_iff).2 hnd
  have hinj := List.inj_on_of_nodup_map hkeys
  have hafter : ∀ (i : ℕ) (h1 : i < (List.insertionSort rowLe rows).length)
      (j : Fin (List.insertionSort rowLe rows).length),
      ((List.insertionSort rowLe rows).get j).route =
        ((List.insertionSort rowLe rows).get ⟨i, h1⟩).route →
      ((List.insertionSort rowLe rows).get ⟨i, h1⟩).seq <
        ((List.insertionSort rowLe rows).get j).seq →
      i < j.1 := by
    intro i h1 j hroute hseq
    rcases Nat.lt_trichotomy j.1 i with hlt | heq | hgt
    · have hle := hsort.rel_get_of_lt (a := j) (b := ⟨i, h1⟩) hlt
      rcases hle with h | ⟨h', h''⟩ <;> omega
    · have hje : j = ⟨i, h1⟩ := Fin.ext heq
      rw [hje] at hroute hseq
      omega
    · exact hgt
  constructor
  · intro p hp
    obtain ⟨hzip, hkept⟩ := List.mem_filter.1 hp
    obtain ⟨y, hy, hyroute, hyseq⟩ := keptStop_iff.1 hkept
    obtain ⟨i, h1, h2, hga, hgb⟩ :=
      mem_zip_tail_elim (show (p.1, p.2) ∈ _ from hzip)
    have hmem_a : p.1 ∈ List.insertionSort rowLe rows := by
      rw [← hga]; exact List.get_mem _ _ _
    have hmem_b : p.2 ∈ List.insertionSort rowLe rows := by
      rw [← hgb]; exact List.get_mem _ _ _
    obtain ⟨jf, hjf⟩ := List.mem_iff_get.1 hy
    have hj : i < jf.1 := by
      refine hafter i h1 jf ?_ ?_
      · rw [hjf, hga]; exact hyroute
      · rw [hjf, hga]; exact hyseq
    have hstep : ∀ (k : Fin (List.insertionSort rowLe rows).length),
        i < k.1 →
        rowLe ((List.insertionSort rowLe rows).get ⟨i + 1, h2⟩)
          ((List.insertionSort rowLe rows).get k) := by
      intro k hk
      rcases Nat.lt_or_ge (i + 1) k.1 with h | h
      · exact hsort.rel_get_of_lt (a := ⟨i + 1, h2⟩) (b := k) h
      · have hke : k = ⟨i + 1, h2⟩ := Fin.ext (show k.1 = i + 1 by omega)
        rw [hke]
        exact Or.inr ⟨rfl, le_refl _⟩
    have hle_ab : rowLe p.1 p.2 := by
      rw [← hga, ← hgb]
      exact hsort.rel_get_of_lt (a := ⟨i, h1⟩) (b := ⟨i + 1, h2⟩) (by simp)
    have hle_by : rowLe p.2 y := by
      rw [← hgb, ← hjf]
      exact hstep jf hj
    have hroute : p.2.route = p.1.route := by
      rcases hle_ab with h | ⟨h', h''⟩ <;> rcases hle_by with h2' | ⟨h2'', h2'''⟩ <;> omega
    have hsnodup : (List.insertionSort rowLe rows).Nodup := hkeys.of_map
    have hne_ab : p.1 ≠ p.2 := by
      intro hcontra
      have hgeq : (List.insertionSort rowLe rows).get ⟨i, h1⟩ =
          (List.insertionSort rowLe rows).get ⟨i + 1, h2⟩ := by
        rw [hga, hgb, hcontra]
      have := (List.Nodup.get_inj_iff hsnodup).1 hgeq
      simp at this
    have hseq_ab : p.1.seq < p.2.seq := by
      by_contra hcon
      have hkeyeq : (p.1.route, p.1.seq) = (p.2.route, p.2.seq) := by
        have h1' : p.1.route = p.2.route := hroute.symm
        have h2' : p.1.seq = p.2.seq := by
          rcases hle_ab with h | ⟨h', h''⟩ <;> omega
        rw [h1', h2']
      exact hne_ab (hinj hmem_a hmem_b hkeyeq)
    refine ⟨hroute, hseq_ab, ?_, ?_, ?_⟩
    · intro c hc hcroute hcseq
      have hcs : c ∈ List.insertionSort rowLe rows := hperm.mem_iff.2 hc
      obtain ⟨kf, hkf⟩ := List.mem_iff_get.1 hcs
      have hk : i < kf.1 := by
        refine hafter i h1 kf ?_ ?_
        · rw [hkf, hga]; exact hcroute
        · rw [hkf, hga]; exact hcseq
      have hbc : rowLe p.2 c := by
        rw [← hgb, ← hkf]
        exact hstep kf hk
      rcases hbc with h | ⟨h', h''⟩ <;> omega
    · obtain ⟨tagged, ht, rfl⟩ := build_elim hbuild
      rw [show NKey.trl p.1.route p.1.seq "start" = startKey p from rfl,
        attrOf_finalGraphOf]
      unfold baseOf
      rw [(@attrOf_baseGraph_self _ (locsOf rows) _
        (legs_keys_nodup hnd) hp).1]
      rfl
    · obtain ⟨tagged, ht, rfl⟩ := build_elim hbuild
      rw [show NKey.trl p.1.route p.1.seq "end" = endKey p from rfl,
        attrOf_finalGraphOf]
      unfold baseOf
      rw [(@attrOf_baseGraph_self _ (locsOf rows) _
        (legs_keys_nodup hnd) hp).2]
      rfl
  · intro a ha
    constructor
    · rintro ⟨b, hab⟩
      obtain ⟨-, hkept⟩ := List.mem_filter.1 hab
      obtain ⟨y, hy, hyroute, hyseq⟩ := keptStop_iff.1 hkept
      exact ⟨y, hperm.mem_iff.1 hy, hyroute, hyseq⟩
    · rintro ⟨y, hy, hyroute, hyseq⟩
      have has : a ∈ List.insertionSort rowLe rows := hperm.mem_iff.2 ha
      obtain ⟨ia, hia⟩ := List.mem_iff_get.1 has
      obtain ⟨jf, hjf⟩ := List.mem_iff_get.1 (hperm.mem_iff.2 hy)
      have hj : ia.1 < jf.1 := by
        refine hafter ia.1 ia.2 jf ?_ ?_
        · simp only [Fin.eta]
          rw [hjf, hia]
          exact hyroute
        · simp only [Fin.eta]
          rw [hia, hjf]
          exact hyseq
      have h2 : ia.1 + 1 < (List.insertionSort rowLe rows).length := by
        have := jf.2
        omega
      refine ⟨(List.insertionSort rowLe rows).get ⟨ia.1 + 1, h2⟩, ?_⟩
      refine List.mem_filter.2 ⟨?_, ?_⟩
      · have hz := mem_zip_tail_intro (l := List.insertionSort rowLe rows) ia.1 ia.2 h2
        simp only [Fin.eta] at hz
        rw [hia] at hz
        exact hz
      · exact keptStop_iff.2 ⟨y, hperm.mem_iff.2 hy, hyroute, hyseq⟩

/-- C5 witness: the theorem at `rows2`, projected to the first leg: it pairs
stop (1,1) with stop (1,2), and the trailer nodes carry ready −6 and
release 108. -/
theorem c5_witness :
    ((⟨1, 2, "A", 100⟩ : StopRec).route = (⟨1, 1, "A", 0⟩ : StopRec).route ∧
      (⟨1, 1, "A", 0⟩ : StopRec).seq < (⟨1, 2, "A", 100⟩ : StopRec).seq ∧
      (∀ c ∈ rows2, c.route = (⟨1, 1, "A", 0⟩ : StopRec).route →
        (⟨1, 1, "A", 0⟩ : StopRec).seq < c.seq →
        (⟨1, 2, "A", 100⟩ : StopRec).seq ≤ c.seq) ∧
      (attrOf G2 (.trl 1 1 "start")).startTm = some (0 - preload_time) ∧
      (attrOf G2 (.trl 1 1 "end")).endTm = some (100 + drop_time)) :=
  (c5_leg_derivation rows2 G2 (by decide) build_rows2).1
    (⟨1, 1, "A", 0⟩, ⟨1, 2, "A", 100⟩) (by decide)

end TrailerOpt
